import Mathlib

/-!
Verification of the poster-composition engine.

This file gives a shallow embedding, over `ℚ`, of the algorithmic core of the
product-poster-creator repository:

* `src/lib/layoutSolver.ts` — the mosaic layout solver (`computeOptimalLayout`,
  `layoutTree`, `buildTrees`, `generatePermutations`, `buildLeaf`, `buildSplit`);
* `src/lib/textFit.ts` — the typography fitter (`fitTextBlock`, `wrapText`);
* the listing-preview manipulation controller (drag / resize / pinch handlers,
  `snapCoordinate`, `clampPosition`, `handleFrameUpdate`);
* the app-level solve-and-normalize pipeline (initial layout effect and
  `handleResetLayout`).

JavaScript numbers are modelled as rationals.  Divergences from IEEE-754 JS
semantics (all recorded where they are used): `x / 0 = 0` in `ℚ` whereas JS
yields `±Infinity` (never reached on the inputs of the theorems below, and
noted where relevant); `Number.isFinite x` is constantly true on `ℚ`;
`toFixed(6)` is modelled as round-half-up at six decimals; `Array.prototype.sort`
is modelled by a stable insertion sort (JS specifies a stable sort, which
determines the output uniquely).
-/

/-- JS `Math.round`-style rounding used by `Number(x.toFixed(6))`:
round half up at the integer level. -/
def jsRound (q : ℚ) : ℤ := ⌊q + 1/2⌋

/-- The committed-layout quantization from `handleFrameUpdate`:
`Number(v.toFixed(6))`, i.e. rounding to six decimal places. -/
def round6 (q : ℚ) : ℚ := (jsRound (q * 1000000) : ℚ) / 1000000

/-- The `clamp` helper of the preview component:
`(value, min, max) => Math.min(Math.max(value, min), max)`. -/
def jsClamp (value lo hi : ℚ) : ℚ := min (max value lo) hi

/-- JS `a || b` for numbers: returns `b` when `a` is falsy (`0`). -/
def jsOr (a b : ℚ) : ℚ := if a = 0 then b else a

/-! ## Mosaic layout solver (`src/lib/layoutSolver.ts`) -/

/-- `LayoutRect` of `layoutSolver.ts`: a solved rectangle in solver pixel
units, tagged with the index of the aspect ratio it belongs to. -/
structure LayoutRect where
  index : ℕ
  x : ℚ
  y : ℚ
  width : ℚ
  height : ℚ
  deriving DecidableEq, Repr

/-- Binary guillotine split tree (`LeafNode` / `SplitNode` of the source).
`vertical = true` is the side-by-side split, `false` the stacked split;
each node caches its combined aspect `ratio` exactly as the source does. -/
inductive LayoutNode where
  | leaf (index : ℕ) (ratio : ℚ)
  | split (vertical : Bool) (left right : LayoutNode) (ratio : ℚ)
  deriving DecidableEq, Repr

/-- The cached `ratio` field of a node. -/
def LayoutNode.ratio : LayoutNode → ℚ
  | .leaf _ r => r
  | .split _ _ _ r => r

/-- `ContainerRect` of the source. -/
structure ContainerRect where
  x : ℚ
  y : ℚ
  width : ℚ
  height : ℚ
  deriving DecidableEq, Repr

/-- `LayoutSolution` of the source. -/
structure LayoutSolution where
  rects : List LayoutRect
  usedWidth : ℚ
  deriving DecidableEq, Repr

/-- `buildLeaf`: floors the ratio at `0.1`. -/
def buildLeaf (index : ℕ) (ratio : ℚ) : LayoutNode :=
  .leaf index (max ratio (1/10))

/-- `buildSplit`: combined ratio is the sum for a vertical (side-by-side)
split and the harmonic combination for a horizontal (stacked) split. -/
def buildSplit (vertical : Bool) (left right : LayoutNode) : LayoutNode :=
  .split vertical left right
    (if vertical then left.ratio + right.ratio
     else 1 / (1 / left.ratio + 1 / right.ratio))

/-- Structural index-tagging of a list, modelling the `(item, idx)` pattern of
`Array.prototype.forEach` / destructured `source.forEach((item, idx) => ...)`:
`withIdx k [a, b, ...] = [(k, a), (k+1, b), ...]`. -/
def withIdx {α : Type} : ℕ → List α → List (ℕ × α)
  | _, [] => []
  | k, a :: as => (k, a) :: withIdx (k + 1) as

/-- Structural `[s, s+1, ..., s+n-1]`, modelling the source's
`for (let split = 1; split < indices.length; split += 1)` loop counter. -/
def natRange : ℕ → ℕ → List ℕ
  | _, 0 => []
  | s, n + 1 => s :: natRange (s + 1) n

/-- Fuel-indexed body of `generatePermutations`.  The fuel only forces
termination; `genPermsGo_congr` below shows any fuel of at least
`source.length` gives the same result, and `generatePermutations_eq`
recovers the source's recursion verbatim. -/
def genPermsGo {α : Type} : ℕ → List α → List (List α)
  | 0, l => [l]
  | fuel + 1, l =>
    if l.length ≤ 1 then [l]
    else
      (withIdx 0 l).flatMap (fun x =>
        (genPermsGo fuel (l.take x.1 ++ l.drop (x.1 + 1))).map
          (fun perm => x.2 :: perm))

/-- `generatePermutations` of the source: for each position pick that element
as head and recurse on the list with that position removed. -/
def generatePermutations {α : Type} (source : List α) : List (List α) :=
  genPermsGo source.length source

/-- Fuel-indexed body of `buildTrees`; see `buildTrees_eq` for the source
recursion. -/
def buildTreesGo (ratios : List ℚ) : ℕ → List ℕ → List LayoutNode
  | _, [] => []
  | _, [i] => [buildLeaf i (ratios.getD i 0)]
  | 0, _ :: _ :: _ => []
  | fuel + 1, i :: j :: rest =>
    (natRange 1 ((i :: j :: rest).length - 1)).flatMap (fun s =>
      (buildTreesGo ratios fuel ((i :: j :: rest).take s)).flatMap (fun leftNode =>
        (buildTreesGo ratios fuel ((i :: j :: rest).drop s)).flatMap (fun rightNode =>
          [buildSplit true leftNode rightNode,
           buildSplit false leftNode rightNode])))

/-- `buildTrees`: all binary guillotine trees over an ordered index sequence,
looking leaf ratios up in `ratios` (out-of-range lookups default to `0`,
which the leaf floor then lifts to `0.1`; such lookups do not occur for the
index lists the solver passes).  For every split position the vertical split
is pushed before the horizontal one, as in the source.  A source list of
length `0` yields `[]` exactly as the source does (the `length === 1` test
fails and the split loop body never runs). -/
def buildTrees (indices : List ℕ) (ratios : List ℚ) : List LayoutNode :=
  buildTreesGo ratios indices.length indices

/-- Fallback index used by the degenerate-ratio branches of `layoutTree`:
`node.left.kind === 'leaf' ? node.left.index : 0`. -/
def fallbackIndex : LayoutNode → ℕ
  | .leaf i _ => i
  | .split _ _ _ _ => 0

/-- `layoutTree`: lays a tree out inside a container, centering the used
region on the non-limiting axis, with the source's degenerate-ratio
fallback branches. -/
def layoutTree : LayoutNode → ContainerRect → List LayoutRect
  | .leaf i _, c => [⟨i, c.x, c.y, c.width, c.height⟩]
  | .split true left right _, c =>
    let totalRatio := left.ratio + right.ratio
    if totalRatio ≤ 0 then
      [⟨fallbackIndex left, c.x, c.y, c.width, c.height⟩]
    else
      let maxHeight := min c.height (c.width / totalRatio)
      let usedWidth := totalRatio * maxHeight
      let offsetX := c.x + (c.width - usedWidth) / 2
      let offsetY := c.y + (c.height - maxHeight) / 2
      let leftWidth := maxHeight * left.ratio
      let rightWidth := maxHeight * right.ratio
      layoutTree left ⟨offsetX, offsetY, leftWidth, maxHeight⟩ ++
        layoutTree right ⟨offsetX + leftWidth, offsetY, rightWidth, maxHeight⟩
  | .split false left right ratio, c =>
    if ratio ≤ 0 then
      [⟨fallbackIndex left, c.x, c.y, c.width, c.height⟩]
    else
      let availableWidth := min c.width (c.height * ratio)
      let usedHeight := availableWidth / ratio
      let offsetX := c.x + (c.width - availableWidth) / 2
      let offsetY := c.y + (c.height - usedHeight) / 2
      let topHeight := availableWidth / left.ratio
      let bottomHeight := availableWidth / right.ratio
      layoutTree left ⟨offsetX, offsetY, availableWidth, topHeight⟩ ++
        layoutTree right ⟨offsetX, offsetY + topHeight, availableWidth, bottomHeight⟩

/-- Total covered area of a candidate layout: the score
`layout.reduce((sum, rect) => sum + rect.width * rect.height, 0)`. -/
def areaSum (rects : List LayoutRect) : ℚ :=
  (rects.map (fun r => r.width * r.height)).sum

/-- One update of the solver's best-candidate fold: replace the running best
exactly when `score > bestScore`. -/
def pickBestStep (best : Option (List LayoutRect × ℚ)) (layout : List LayoutRect) :
    Option (List LayoutRect × ℚ) :=
  let score := areaSum layout
  match best with
  | none => some (layout, score)
  | some (bl, bs) => if bs < score then some (layout, score) else some (bl, bs)

/-- The solver's best-candidate fold. The source initializes
`bestScore = -Infinity` and replaces on `score > bestScore`; with every real
score exceeding `-Infinity`, this is equivalent to the `Option` fold below
(the first candidate always replaces `none`). -/
def pickBest (cands : List (List LayoutRect)) : Option (List LayoutRect × ℚ) :=
  cands.foldl pickBestStep none

/-- JS `reduce((min, r) => Math.min(min, r.x), +Infinity)` over a list of
rationals, as an `Option` (`none` plays `+Infinity`). -/
def reduceMin (xs : List ℚ) : Option ℚ :=
  xs.foldl (fun m x => some (match m with | none => x | some v => min v x)) none

/-- `computeOptimalLayout` of `layoutSolver.ts`.

For the `minX` reduction the source starts from `+Infinity`; here the empty
fold yields `none`, defaulted to `0`.  The two agree observably: when the
best layout is non-empty the default is irrelevant, and when it is empty both
versions return `rects = []` and `usedWidth = min (max 0 1) w = min 1 w`
(in JS `max(0 - Infinity, 1) = 1` likewise). -/
def computeOptimalLayout (aspectRatios : List ℚ)
    (containerWidth containerHeight : ℚ) : LayoutSolution :=
  if aspectRatios.length = 0 then
    ⟨[], containerWidth⟩
  else if aspectRatios.length = 1 then
    let ratio := jsOr (aspectRatios.getD 0 0) 1
    let naturalWidth := containerHeight * ratio
    let width := min containerWidth (max naturalWidth (containerWidth * (1/4)))
    ⟨[⟨0, 0, 0, width, containerHeight⟩], width⟩
  else
    let indices := List.range aspectRatios.length
    let permutations := generatePermutations indices
    let cands := permutations.flatMap (fun perm =>
      (buildTrees perm aspectRatios).map (fun tree =>
        layoutTree tree ⟨0, 0, containerWidth, containerHeight⟩))
    let bestLayout := match pickBest cands with
      | none => []
      | some (bl, _) => bl
    let sorted := bestLayout.insertionSort (fun a b => a.index ≤ b.index)
    let minX := (reduceMin (sorted.map LayoutRect.x)).getD 0
    let maxRight := sorted.foldl (fun m r => max m (r.x + r.width)) 0
    let width := max (maxRight - minX) 1
    let normalizedRects := sorted.map (fun r => { r with x := r.x - minX })
    ⟨normalizedRects, min width containerWidth⟩

/-! ## Typography fitter (`src/lib/textFit.ts`)

Text measurement is an external capability (spec section 6): the canvas
context is modelled by a pure measurement function.  `wrapText` receives the
measure for the currently set font; `fitTextBlock` receives a font-indexed
measure and sets the font string exactly where the source assigns
`ctx.font`. -/

/-- Whitespace test modelling the JS `\s` class (restricted to the ASCII
whitespace that can occur here; inside a paragraph no newline occurs). -/
def wsChar (c : Char) : Bool := c.isWhitespace

/-- Helper for `jsTrim`. -/
def dropTrailingWs (l : List Char) : List Char :=
  (l.reverse.dropWhile wsChar).reverse

/-- JS `String.prototype.trim`. -/
def jsTrim (s : String) : String :=
  String.mk (dropTrailingWs (s.toList.dropWhile wsChar))

/-- Helper for `jsSplitLines`: accumulates the current piece in reverse. -/
def splitLinesAux : List Char → List Char → List String
  | [], acc => [String.mk acc.reverse]
  | c :: cs, acc =>
    if c = '\n' then String.mk acc.reverse :: splitLinesAux cs []
    else splitLinesAux cs (c :: acc)

/-- JS `text.split(/\r?\n/)`, the paragraph split of `wrapText`.  We split on
`'\n'` and leave any preceding `'\r'` on the piece; since `wrapText` only
ever uses `paragraphs[i].trim()`, which removes the `'\r'` again, the two
are observably identical. -/
def jsSplitLines (s : String) : List String :=
  splitLinesAux s.toList []

/-- Helper for `jsSplitWs`: accumulates the current token in reverse. -/
def splitWsAux : List Char → List Char → List String
  | [], cur => if cur.isEmpty then [] else [String.mk cur.reverse]
  | c :: cs, cur =>
    if wsChar c then
      if cur.isEmpty then splitWsAux cs [] else String.mk cur.reverse :: splitWsAux cs []
    else splitWsAux cs (c :: cur)

/-- JS `paragraph.split(/\s+/)` as applied by `wrapText`: the paragraph is
already trimmed and non-empty there, so the split yields exactly the
whitespace-separated tokens with no empty entries, which is what this
returns. -/
def jsSplitWs (s : String) : List String :=
  splitWsAux s.toList []

/-- `TextFitOptions` of `textFit.ts`. -/
structure TextFitOptions where
  maxWidth : ℚ
  maxHeight : ℚ
  maxLines : ℚ
  maxFontSize : ℚ
  minFontSize : ℚ
  fontWeight : String
  lineHeightMultiplier : ℚ

/-- `TypographyFit` result record of `fitTextBlock`. -/
structure TextFit where
  fontSize : ℚ
  lineHeight : ℚ
  lines : List String
  deriving DecidableEq, Repr

/-- JS `lines.slice(0, maxLines)` at the early-return sites of `wrapText`.
There `maxLines ≤ lines.length`; for fractional positive bounds JS truncates
the end index, matching the floor here, and a negative bound only ever
occurs with `lines = []`, where both sides give `[]`. -/
def jsTruncLines (maxLines : ℚ) (lines : List String) : List String :=
  lines.take (Int.toNat ⌊maxLines⌋)

/-- One step of the `words.forEach` fold of `wrapText`: state is
`(lines, currentLine)`. -/
def wrapStep (measureText : String → ℚ) (maxWidth maxLines : ℚ)
    (st : List String × String) (word : String) : List String × String :=
  let nextLine := if st.2 = "" then word else st.2 ++ " " ++ word
  let width := measureText nextLine
  if maxWidth < width ∧ st.2 ≠ "" then
    (if (st.1.length : ℚ) < maxLines then st.1 ++ [st.2] else st.1, word)
  else
    (st.1, nextLine)

/-- Processing of one paragraph of `wrapText`.  `Sum.inl` is the source's
early `return lines.slice(0, maxLines)`, `Sum.inr` the fall-through to the
next paragraph with the updated `lines`. -/
def wrapPara (measureText : String → ℚ) (maxWidth maxLines : ℚ)
    (lines : List String) (para : String) (isLast : Bool) :
    List String ⊕ List String :=
  let p := jsTrim para
  if p = "" then
    let lines1 := if (lines.length : ℚ) < maxLines then lines ++ [""] else lines
    if maxLines ≤ (lines1.length : ℚ) then .inl (jsTruncLines maxLines lines1)
    else .inr lines1
  else
    let words := jsSplitWs p
    let st := words.foldl (wrapStep measureText maxWidth maxLines) (lines, "")
    let lines1 :=
      if st.2 ≠ "" ∧ (st.1.length : ℚ) < maxLines then st.1 ++ [st.2] else st.1
    let lines2 :=
      if ¬isLast ∧ (lines1.length : ℚ) < maxLines then lines1 ++ [""] else lines1
    if maxLines ≤ (lines2.length : ℚ) then .inl (jsTruncLines maxLines lines2)
    else .inr lines2

/-- The paragraph loop of `wrapText`. -/
def wrapParas (measureText : String → ℚ) (maxWidth maxLines : ℚ) :
    List String → List String → List String
  | [], lines => lines
  | p :: ps, lines =>
    match wrapPara measureText maxWidth maxLines lines p ps.isEmpty with
    | .inl res => res
    | .inr lines1 => wrapParas measureText maxWidth maxLines ps lines1

/-- `wrapText` of `textFit.ts`.  The source declares a default `maxLines`
of `999`, unused by `fitTextBlock`, which always passes
`options.maxLines`. -/
def wrapText (measureText : String → ℚ) (text : String) (maxWidth : ℚ)
    (maxLines : ℚ) : List String :=
  wrapParas measureText maxWidth maxLines (jsSplitLines text) []

/-- The font string assigned to `ctx.font` by `fitTextBlock`.  (JS renders
the number with decimal notation; the exact rendering only matters through
the abstract measure, which the theorems quantify over.) -/
def fontString (fontWeight : String) (size : ℚ) : String :=
  fontWeight ++ " " ++ toString size ++ "px \"Inter\", \"Arial\", sans-serif"

/-- Descending candidate font sizes of the `for` loop of `fitTextBlock`:
`maxFontSize, maxFontSize - 1, ...` while the size is still at least
`minFontSize`. -/
def fontSizeCandidates (maxFontSize minFontSize : ℚ) : List ℚ :=
  if maxFontSize < minFontSize then []
  else (List.range (Int.toNat ⌊maxFontSize - minFontSize⌋ + 1)).map
    (fun (k : ℕ) => maxFontSize - (k : ℚ))

/-- Wrapped lines of `fitTextBlock` at one candidate font size. -/
def fitLines (measure : String → String → ℚ) (options : TextFitOptions)
    (words : String) (size : ℚ) : List String :=
  wrapText (measure (fontString options.fontWeight size)) words
    options.maxWidth options.maxLines

/-- `fitTextBlock` of `textFit.ts`: descending search for the largest
fitting size, with the silent `minFontSize` fallback.  (The source's
`rawText.trim() || ''` is the identity on the trimmed string.) -/
def fitTextBlock (measure : String → String → ℚ) (rawText : String)
    (options : TextFitOptions) : TextFit :=
  let text := jsTrim rawText
  let words := if 0 < text.length then text else " "
  match (fontSizeCandidates options.maxFontSize options.minFontSize).find?
      (fun size =>
        ((fitLines measure options words size).length : ℚ) *
          (size * options.lineHeightMultiplier) ≤ options.maxHeight) with
  | some size =>
    ⟨size, size * options.lineHeightMultiplier, fitLines measure options words size⟩
  | none =>
    let fallbackSize := options.minFontSize
    let lines := fitLines measure options words fallbackSize
    ⟨fallbackSize, fallbackSize * options.lineHeightMultiplier,
      if lines.length > 0 then lines else [""]⟩

/-! ## Interactive manipulation controller (listing preview component)

The drag / resize / pinch handlers of the preview component, one committed
update per pointer / touch move.  Pointer deltas are normalized against the
container metrics and added to the gesture's start rect; since the start
rect and the deltas range over all rationals, a move is parameterized
directly by the resulting candidate coordinate(s).  `getContainerMetrics`
returns `null` (and the handlers bail out) unless both pixel dimensions are
positive, which the theorems carry as hypotheses. -/

/-- `NormalizedRect` of `types.ts`: fractions of the photo container. -/
structure NormalizedRect where
  x : ℚ
  y : ℚ
  width : ℚ
  height : ℚ
  deriving DecidableEq, Repr

/-- `SNAP_THRESHOLD = 0.02`. -/
def SNAP_THRESHOLD : ℚ := 1/50

/-- `handleFrameUpdate`: every committed layout is quantized to six decimal
places via `Number(v.toFixed(6))` field by field. -/
def handleFrameUpdate (l : NormalizedRect) : NormalizedRect :=
  ⟨round6 l.x, round6 l.y, round6 l.width, round6 l.height⟩

/-- `clampPosition` of the preview component.  The
`!Number.isFinite(size)` guard cannot fire over `ℚ`. -/
def clampPosition (value size : ℚ) : ℚ :=
  min (max 0 (1 - size)) (max 0 value)

/-- The snap-candidate list of `snapCoordinate` in push order: `0`,
`1 - size`, then for every other frame (the dragged frame itself is skipped
by the `frame.id === frameId` test, so `others` holds the other frames'
layouts) its edge, opposite edge, and both minus the dragged size.
`axisX = true` is the x axis. -/
def snapCandidates (axisX : Bool) (others : List NormalizedRect) (size : ℚ) :
    List ℚ :=
  0 :: (1 - size) ::
    others.flatMap (fun other =>
      if axisX then
        [other.x, other.x + other.width, other.x - size,
         other.x + other.width - size]
      else
        [other.y, other.y + other.height, other.y - size,
         other.y + other.height - size])

/-- `snapCoordinate`: the first candidate within `SNAP_THRESHOLD` of the
value, else the value unchanged. -/
def snapCoordinate (value size : ℚ) (axisX : Bool)
    (others : List NormalizedRect) : ℚ :=
  match (snapCandidates axisX others size).find?
      (fun candidate => |value - candidate| ≤ SNAP_THRESHOLD) with
  | some candidate => candidate
  | none => value

/-- `normalizedHeightFromWidth` of the preview component (the
`Number.isFinite` disjuncts cannot fire over `ℚ`). -/
def normalizedHeightFromWidth (width aspectRatio containerAspect : ℚ) : ℚ :=
  if width < 0 then 0
  else if aspectRatio ≤ 0 ∨ containerAspect ≤ 0 then max 0 (min 1 width)
  else max 0 (min 1 (width * (containerAspect / aspectRatio)))

/-- One committed drag move (`handlePointerMove`, drag branch): snap the
candidate position per axis against the other frames, clamp into bounds,
and commit through `handleFrameUpdate` (which re-quantizes the unchanged
width and height too). -/
def dragStep (others : List NormalizedRect) (l : NormalizedRect)
    (candX candY : ℚ) : NormalizedRect :=
  let newX := clampPosition (snapCoordinate candX l.width true others) l.width
  let newY := clampPosition (snapCoordinate candY l.height false others) l.height
  handleFrameUpdate { l with x := newX, y := newY }

/-- One committed resize move (`handlePointerMove`, resize branch) against a
container of pixel size `W × H`.  `cw` is `initialRect.width + deltaX`; the
bounds use the gesture's start rect, whose `x` and `y` agree with the
current layout because a resize never moves the frame (`MIN_FRAME_WIDTH_PX
= 80`, guardrail `0.04`, `WIDTH_MAX = 1`). -/
def resizeStep (W H aspectRatio : ℚ) (l : NormalizedRect) (cw : ℚ) :
    NormalizedRect :=
  let metricsAspect := W / H
  let minWidthNormalized := max (80 / W) (1/25)
  let availableWidth := max 0 (1 - l.x)
  let availableHeight := max 0 (1 - l.y)
  let maxWidthFromHeight :=
    if 0 < availableHeight then availableHeight * (aspectRatio / metricsAspect)
    else 0
  let maxWidthBound := max 0 (min 1 (min availableWidth maxWidthFromHeight))
  let minWidth := min minWidthNormalized maxWidthBound
  let maxWidth := max minWidth maxWidthBound
  let nextWidth := jsClamp cw minWidth maxWidth
  let nextHeight := normalizedHeightFromWidth nextWidth aspectRatio metricsAspect
  handleFrameUpdate { l with width := nextWidth, height := nextHeight }

/-- One committed pinch move (`handleTouchStart` two-finger state plus
`handleTouchMove`): `startRect` is the layout at pinch start (fixing the
pixel center and initial width), `l` the current layout (used for the
minimum-width guard), and the finger distances are abstract positive
lengths.  In ℚ a zero `initialDistance` would give `scale = 0` where JS
gives `Infinity`; no theorem below instantiates it with zero. -/
def pinchStep (W H aspectRatio : ℚ) (others : List NormalizedRect)
    (startRect l : NormalizedRect) (initialDistance distance : ℚ) :
    NormalizedRect :=
  let scale := distance / initialDistance
  let centerX := (startRect.x + startRect.width / 2) * W
  let centerY := (startRect.y + startRect.height / 2) * H
  let initialWidthPx := startRect.width * W
  let minWidthPx := max 80 (l.width * W * (1/2))
  let maxWidthFromWidth := min (centerX * 2) ((W - centerX) * 2)
  let maxHeightPx := min (centerY * 2) ((H - centerY) * 2)
  let maxWidthFromHeight := maxHeightPx * aspectRatio
  let maxWidthPx := min (min maxWidthFromWidth maxWidthFromHeight) W
  let nextWidthPx := jsClamp (initialWidthPx * scale) minWidthPx maxWidthPx
  let nextHeightPx := nextWidthPx / aspectRatio
  let nextWidth := nextWidthPx / W
  let nextHeight := nextHeightPx / H
  let candX := (centerX - nextWidthPx / 2) / W
  let candY := (centerY - nextHeightPx / 2) / H
  let newX := clampPosition (snapCoordinate candX nextWidth true others) nextWidth
  let newY := clampPosition (snapCoordinate candY nextHeight false others) nextHeight
  handleFrameUpdate ⟨newX, newY, nextWidth, nextHeight⟩

/-- One committed drag or resize update on a frame of aspect ratio
`aspect`, with arbitrary other frames, candidate values, and positive
container metrics. -/
inductive DragResizeStep (aspect : ℚ) : NormalizedRect → NormalizedRect → Prop
  | drag (others : List NormalizedRect) (candX candY : ℚ) (l : NormalizedRect) :
      DragResizeStep aspect l (dragStep others l candX candY)
  | resize (W H : ℚ) (hW : 0 < W) (hH : 0 < H) (cw : ℚ) (l : NormalizedRect) :
      DragResizeStep aspect l (resizeStep W H aspect l cw)

/-! ## App-level solve-and-normalize pipeline (index page)

The initial layout effect and `handleResetLayout` both run
`computeOptimalLayout` on the frames' aspect ratios against
`MAX_PHOTO_WIDTH × CANVAS_HEIGHT`, clamp the used width into
`[0.25 × MAX_PHOTO_WIDTH, MAX_PHOTO_WIDTH]`, and normalize every rect by
the clamped width / canvas height.  The constants live in
`lib/constants.ts` (not part of the algorithmic sources), so the pipeline
is parameterized by them; the theorems hold for every positive choice. -/

/-- Per-index normalization shared by the initial layout effect and
`handleResetLayout`: look the solved rect up by index (first match), fall
back to a full-height rect, and divide by the effective width / canvas
height. -/
def normalizeFromSolve (effectiveWidth canvasHeight : ℚ)
    (rects : List LayoutRect) (count : ℕ) : List NormalizedRect :=
  (List.range count).map (fun index =>
    let rect := (rects.find? (fun item => item.index = index)).getD
      ⟨index, 0, 0, effectiveWidth, canvasHeight⟩
    ⟨rect.x / effectiveWidth, rect.y / canvasHeight,
     rect.width / effectiveWidth, rect.height / canvasHeight⟩)

/-- The initial layout effect: solve, guard the used width
(`Number.isFinite(usedWidth) && usedWidth > 0`, the finiteness conjunct
being vacuous over `ℚ`), clamp, normalize. -/
def initialLayoutPipeline (maxPhotoWidth canvasHeight defaultPhotoWidth : ℚ)
    (aspects : List ℚ) : ℚ × List NormalizedRect :=
  let sol := computeOptimalLayout aspects maxPhotoWidth canvasHeight
  let safeUsedWidth := if 0 < sol.usedWidth then sol.usedWidth else defaultPhotoWidth
  let effectiveWidth := min (max safeUsedWidth (maxPhotoWidth * (1/4))) maxPhotoWidth
  (effectiveWidth, normalizeFromSolve effectiveWidth canvasHeight sol.rects aspects.length)

/-- `handleResetLayout`: solve afresh from the current frames' aspect
ratios, clamp, normalize (no `safeUsedWidth` guard here). -/
def resetLayoutPipeline (maxPhotoWidth canvasHeight : ℚ)
    (aspects : List ℚ) : ℚ × List NormalizedRect :=
  let sol := computeOptimalLayout aspects maxPhotoWidth canvasHeight
  let effectiveWidth := min (max sol.usedWidth (maxPhotoWidth * (1/4))) maxPhotoWidth
  (effectiveWidth, normalizeFromSolve effectiveWidth canvasHeight sol.rects aspects.length)

/-! ## Derived notions used by the specification statements -/

/-- Leaf indices of a tree in layout order (left before right; for a
horizontal split, top before bottom). -/
def leavesIdx : LayoutNode → List ℕ
  | .leaf i _ => [i]
  | .split _ left right _ => leavesIdx left ++ leavesIdx right

/-- Well-formedness of the trees the solver builds: every leaf carries a
ratio floored at `0.1` and every split caches exactly the `buildSplit`
combination of its children's ratios. -/
def wfTree : LayoutNode → Prop
  | .leaf _ r => 1/10 ≤ r
  | .split v left right ρ =>
    wfTree left ∧ wfTree right ∧
      ρ = (if v then left.ratio + right.ratio
           else 1 / (1 / left.ratio + 1 / right.ratio))

/-- Renaming of leaf indices (geometry untouched). -/
def relabel (σ : ℕ → ℕ) : LayoutNode → LayoutNode
  | .leaf i r => .leaf (σ i) r
  | .split v left right ρ => .split v (relabel σ left) (relabel σ right) ρ

/-- The specification reading of `layoutTree` in which the degenerate-ratio
fallback branches do not exist; comparing it with `layoutTree` makes "the
fallback branches are unreachable for solver-built trees" a theorem. -/
def layoutTreeNoFallback : LayoutNode → ContainerRect → List LayoutRect
  | .leaf i _, c => [⟨i, c.x, c.y, c.width, c.height⟩]
  | .split true left right _, c =>
    let totalRatio := left.ratio + right.ratio
    let maxHeight := min c.height (c.width / totalRatio)
    let usedWidth := totalRatio * maxHeight
    let offsetX := c.x + (c.width - usedWidth) / 2
    let offsetY := c.y + (c.height - maxHeight) / 2
    let leftWidth := maxHeight * left.ratio
    let rightWidth := maxHeight * right.ratio
    layoutTreeNoFallback left ⟨offsetX, offsetY, leftWidth, maxHeight⟩ ++
      layoutTreeNoFallback right ⟨offsetX + leftWidth, offsetY, rightWidth, maxHeight⟩
  | .split false left right ratio, c =>
    let availableWidth := min c.width (c.height * ratio)
    let usedHeight := availableWidth / ratio
    let offsetX := c.x + (c.width - availableWidth) / 2
    let offsetY := c.y + (c.height - usedHeight) / 2
    let topHeight := availableWidth / left.ratio
    let bottomHeight := availableWidth / right.ratio
    layoutTreeNoFallback left ⟨offsetX, offsetY, availableWidth, topHeight⟩ ++
      layoutTreeNoFallback right ⟨offsetX, offsetY + topHeight, availableWidth, bottomHeight⟩

/-- Multiset of rect shapes (width-height pairs) of a layout. -/
def shapesMultiset (rects : List LayoutRect) : Multiset (ℚ × ℚ) :=
  (rects.map (fun r => (r.width, r.height)) : List (ℚ × ℚ))

/-- Strict positivity of every node ratio in a tree (the property that makes
both degenerate-ratio fallback branches of `layoutTree` unreachable). -/
def treeAllPos : LayoutNode → Prop
  | .leaf _ r => 0 < r
  | .split _ left right ρ => 0 < ρ ∧ treeAllPos left ∧ treeAllPos right

/-- A frame lying inside the unit canvas, up to the quantization
tolerance `ε = 10⁻⁶` of the committed six-decimal rounding, with
nonnegative size.  This is the invariant the drag / resize commit path
actually maintains. -/
def frameInside (s : NormalizedRect) : Prop :=
  0 ≤ s.x ∧ 0 ≤ s.y ∧ 0 ≤ s.width ∧ 0 ≤ s.height ∧
    s.x + s.width ≤ 1 + 1/1000000 ∧ s.y + s.height ≤ 1 + 1/1000000

/-! ## Generic list helpers -/

theorem flatMap_congr_mem {α β : Type} {l : List α} {f g : α → List β}
    (h : ∀ a ∈ l, f a = g a) : l.flatMap f = l.flatMap g := by
  induction l with
  | nil => rfl
  | cons a as ih =>
    simp only [List.flatMap_cons]
    rw [h a (by simp), ih (fun b hb => h b (by simp [hb]))]

theorem withIdx_length {α : Type} : ∀ (l : List α) (k : ℕ),
    (withIdx k l).length = l.length := by
  intro l
  induction l with
  | nil => intro k; rfl
  | cons a as ih => intro k; simp [withIdx, ih]

theorem withIdx_mem_bounds {α : Type} : ∀ (l : List α) (k : ℕ)
    (x : ℕ × α), x ∈ withIdx k l → k ≤ x.1 ∧ x.1 - k < l.length ∧
      l[x.1 - k]? = some x.2 := by
  intro l
  induction l with
  | nil => intro k x hx; simp [withIdx] at hx
  | cons a as ih =>
    intro k x hx
    simp only [withIdx, List.mem_cons] at hx
    rcases hx with rfl | hx
    · simp
    · rcases ih (k + 1) x hx with ⟨h1, h2, h3⟩
      refine ⟨by omega, by simp; omega, ?_⟩
      have hx1 : x.1 - k = (x.1 - (k + 1)) + 1 := by omega
      rw [hx1]
      simpa using h3

theorem withIdx_fst_lt {α : Type} (l : List α) (x : ℕ × α)
    (hx : x ∈ withIdx 0 l) : x.1 < l.length := by
  have := withIdx_mem_bounds l 0 x hx
  omega

theorem withIdx_getElem {α : Type} (l : List α) (x : ℕ × α)
    (hx : x ∈ withIdx 0 l) : l[x.1]? = some x.2 := by
  have h := withIdx_mem_bounds l 0 x hx
  simpa using h.2.2

theorem withIdx_mem_of {α : Type} : ∀ (l : List α) (k j : ℕ)
    (h : j < l.length), (k + j, l[j]) ∈ withIdx k l := by
  intro l
  induction l with
  | nil => intro k j h; simp at h
  | cons a as ih =>
    intro k j h
    cases j with
    | zero => simp [withIdx]
    | succ j =>
      have hj : j < as.length := by simpa using h
      have := ih (k + 1) j hj
      simp only [withIdx, List.mem_cons]
      right
      have : (k + 1 + j, as[j]) ∈ withIdx (k + 1) as := this
      simpa [Nat.add_assoc, Nat.add_comm 1 j] using this

theorem natRange_mem : ∀ (n s m : ℕ), m ∈ natRange s n ↔ s ≤ m ∧ m < s + n := by
  intro n
  induction n with
  | zero => intro s m; simp [natRange]
  | succ n ih =>
    intro s m
    simp only [natRange, List.mem_cons, ih]
    omega

/-! ## Quantization (`Number(v.toFixed(6))`) -/

theorem round6_le (q : ℚ) : round6 q ≤ q + 1/2000000 := by
  have h : (⌊q * 1000000 + 1/2⌋ : ℚ) ≤ q * 1000000 + 1/2 := Int.floor_le _
  unfold round6 jsRound
  rw [div_le_iff₀ (by norm_num : (0:ℚ) < 1000000)]
  linarith

theorem le_round6 (q : ℚ) : q - 1/2000000 ≤ round6 q := by
  have h : q * 1000000 + 1/2 - 1 < (⌊q * 1000000 + 1/2⌋ : ℚ) :=
    Int.sub_one_lt_floor _
  unfold round6 jsRound
  rw [le_div_iff₀ (by norm_num : (0:ℚ) < 1000000)]
  linarith

theorem round6_mono {p q : ℚ} (h : p ≤ q) : round6 p ≤ round6 q := by
  unfold round6 jsRound
  have : (⌊p * 1000000 + 1/2⌋ : ℤ) ≤ ⌊q * 1000000 + 1/2⌋ :=
    Int.floor_mono (by linarith)
  have h2 : ((⌊p * 1000000 + 1/2⌋ : ℤ) : ℚ) ≤ ((⌊q * 1000000 + 1/2⌋ : ℤ) : ℚ) := by
    exact_mod_cast this
  exact div_le_div_of_nonneg_right h2 (by norm_num) |>.trans_eq rfl

theorem round6_intCast (k : ℤ) : round6 ((k : ℚ) / 1000000) = (k : ℚ) / 1000000 := by
  unfold round6 jsRound
  have h1 : (k : ℚ) / 1000000 * 1000000 = (k : ℚ) := by field_simp
  rw [h1]
  have h2 : ⌊(k : ℚ) + 1/2⌋ = k := by
    rw [add_comm, Int.floor_add_int]
    norm_num
  rw [h2]

theorem round6_zero : round6 0 = 0 := by
  have := round6_intCast 0
  simpa using this

theorem round6_nonneg {q : ℚ} (h : 0 ≤ q) : 0 ≤ round6 q := by
  have := round6_mono h
  rw [round6_zero] at this
  exact this

theorem round6_le_intCast {q : ℚ} {k : ℤ} (h : q ≤ (k : ℚ) / 1000000) :
    round6 q ≤ (k : ℚ) / 1000000 := by
  have := round6_mono h
  rwa [round6_intCast] at this

/-! ## Solver recursion equations -/

theorem genPermsGo_congr {α : Type} : ∀ (f : ℕ) (g : ℕ) (l : List α),
    l.length ≤ f + 1 → l.length ≤ g + 1 → genPermsGo f l = genPermsGo g l := by
  intro f
  induction f with
  | zero =>
    intro g l hf hg
    cases g with
    | zero => rfl
    | succ g =>
      rw [genPermsGo, genPermsGo, if_pos (by omega)]
  | succ f ih =>
    intro g l hf hg
    cases g with
    | zero =>
      rw [genPermsGo, genPermsGo, if_pos (by omega)]
    | succ g =>
      rw [genPermsGo, genPermsGo]
      by_cases h1 : l.length ≤ 1
      · rw [if_pos h1, if_pos h1]
      · rw [if_neg h1, if_neg h1]
        refine flatMap_congr_mem (fun x hx => ?_)
        have hlt := withIdx_fst_lt l x hx
        have hlen : (l.take x.1 ++ l.drop (x.1 + 1)).length = l.length - 1 := by
          simp only [List.length_append, List.length_take, List.length_drop]
          omega
        rw [ih g (l.take x.1 ++ l.drop (x.1 + 1)) (by omega) (by omega)]

theorem generatePermutations_eq {α : Type} (l : List α) :
    generatePermutations l =
      if l.length ≤ 1 then [l]
      else (withIdx 0 l).flatMap (fun x =>
        (generatePermutations (l.take x.1 ++ l.drop (x.1 + 1))).map
          (fun perm => x.2 :: perm)) := by
  by_cases h1 : l.length ≤ 1
  · rw [if_pos h1]
    unfold generatePermutations
    cases hn : l.length with
    | zero => rfl
    | succ n =>
      simp only [genPermsGo]
      rw [if_pos h1]
  · rw [if_neg h1]
    unfold generatePermutations
    obtain ⟨n, hn⟩ : ∃ n, l.length = n + 2 := ⟨l.length - 2, by omega⟩
    rw [hn, genPermsGo, if_neg h1]
    refine flatMap_congr_mem (fun x hx => ?_)
    have hlt := withIdx_fst_lt l x hx
    have hlen : (l.take x.1 ++ l.drop (x.1 + 1)).length = l.length - 1 := by
      simp only [List.length_append, List.length_take, List.length_drop]
      omega
    exact congrArg _ (genPermsGo_congr (n + 1)
      (l.take x.1 ++ l.drop (x.1 + 1)).length
      (l.take x.1 ++ l.drop (x.1 + 1)) (by omega) (by omega))

theorem buildTreesGo_congr (ratios : List ℚ) : ∀ (f : ℕ) (g : ℕ) (idx : List ℕ),
    idx.length ≤ f + 1 → idx.length ≤ g + 1 →
    buildTreesGo ratios f idx = buildTreesGo ratios g idx := by
  intro f
  induction f with
  | zero =>
    intro g l hf hg
    rcases l with _ | ⟨i, _ | ⟨j, rest⟩⟩
    · cases g <;> rfl
    · cases g <;> rfl
    · simp only [List.length_cons] at hf
      omega
  | succ f ih =>
    intro g l hf hg
    rcases l with _ | ⟨i, _ | ⟨j, rest⟩⟩
    · cases g <;> rfl
    · cases g <;> rfl
    · cases g with
      | zero =>
        simp only [List.length_cons] at hg
        omega
      | succ g =>
        simp only [List.length_cons] at hf hg
        rw [buildTreesGo, buildTreesGo]
        refine flatMap_congr_mem (fun s hs => ?_)
        obtain ⟨hs1, hs2⟩ := (natRange_mem _ _ _).mp hs
        simp only [List.length_cons] at hs2
        rw [ih g ((i :: j :: rest).take s)
          (by simp only [List.length_take, List.length_cons]; omega)
          (by simp only [List.length_take, List.length_cons]; omega)]
        simp only [ih g ((i :: j :: rest).drop s)
          (by simp only [List.length_drop, List.length_cons]; omega)
          (by simp only [List.length_drop, List.length_cons]; omega)]

theorem buildTrees_eq (i j : ℕ) (rest : List ℕ) (ratios : List ℚ) :
    buildTrees (i :: j :: rest) ratios =
      (natRange 1 ((i :: j :: rest).length - 1)).flatMap (fun s =>
        (buildTrees ((i :: j :: rest).take s) ratios).flatMap (fun leftNode =>
          (buildTrees ((i :: j :: rest).drop s) ratios).flatMap (fun rightNode =>
            [buildSplit true leftNode rightNode,
             buildSplit false leftNode rightNode]))) := by
  show buildTreesGo ratios (rest.length + 1 + 1) (i :: j :: rest) = _
  rw [buildTreesGo]
  refine flatMap_congr_mem (fun s hs => ?_)
  obtain ⟨hs1, hs2⟩ := (natRange_mem _ _ _).mp hs
  simp only [List.length_cons] at hs2
  rw [buildTreesGo_congr ratios (rest.length + 1) ((i :: j :: rest).take s).length
    ((i :: j :: rest).take s)
    (by simp only [List.length_take, List.length_cons]; omega) (by omega)]
  simp only [buildTreesGo_congr ratios (rest.length + 1)
    ((i :: j :: rest).drop s).length ((i :: j :: rest).drop s)
    (by simp only [List.length_drop, List.length_cons]; omega) (by omega)]
  rfl

/-! ## Structure of solver-built trees -/

@[simp] theorem ratio_leaf (i : ℕ) (r : ℚ) : (LayoutNode.leaf i r).ratio = r := rfl

@[simp] theorem ratio_split (v : Bool) (l r : LayoutNode) (ρ : ℚ) :
    (LayoutNode.split v l r ρ).ratio = ρ := rfl

theorem wfTree_ratio_pos : ∀ (t : LayoutNode), wfTree t → 0 < t.ratio := by
  intro t
  induction t with
  | leaf i r =>
    intro h
    simp only [wfTree] at h
    simp only [ratio_leaf]
    linarith
  | split v left right ρ ihl ihr =>
    intro h
    obtain ⟨hl, hr, hρ⟩ := h
    have pl := ihl hl
    have pr := ihr hr
    simp only [ratio_split]
    rw [hρ]
    cases v with
    | true => simpa using add_pos pl pr
    | false =>
      simp only [if_neg (by simp : ¬(false = true))]
      have h1 : 0 < 1 / left.ratio + 1 / right.ratio :=
        add_pos (one_div_pos.mpr pl) (one_div_pos.mpr pr)
      exact one_div_pos.mpr h1

theorem buildTreesGo_mem_spec (ratios : List ℚ) : ∀ (fuel : ℕ) (idx : List ℕ)
    (t : LayoutNode), t ∈ buildTreesGo ratios fuel idx →
    wfTree t ∧ leavesIdx t = idx := by
  intro fuel
  induction fuel with
  | zero =>
    intro idx t ht
    rcases idx with _ | ⟨i, _ | ⟨j, rest⟩⟩
    · simp [buildTreesGo] at ht
    · simp only [buildTreesGo, List.mem_singleton] at ht
      subst ht
      exact ⟨le_max_right _ _, rfl⟩
    · simp [buildTreesGo] at ht
  | succ fuel ih =>
    intro idx t ht
    rcases idx with _ | ⟨i, _ | ⟨j, rest⟩⟩
    · simp [buildTreesGo] at ht
    · simp only [buildTreesGo, List.mem_singleton] at ht
      subst ht
      exact ⟨le_max_right _ _, rfl⟩
    · rw [buildTreesGo] at ht
      rw [List.mem_flatMap] at ht
      obtain ⟨s, _hs, ht⟩ := ht
      rw [List.mem_flatMap] at ht
      obtain ⟨L, hL, ht⟩ := ht
      rw [List.mem_flatMap] at ht
      obtain ⟨R, hR, ht⟩ := ht
      obtain ⟨hwL, hlL⟩ := ih _ L hL
      obtain ⟨hwR, hlR⟩ := ih _ R hR
      have hsplit : ∀ v : Bool, wfTree (buildSplit v L R) ∧
          leavesIdx (buildSplit v L R) = i :: j :: rest := by
        intro v
        constructor
        · exact ⟨hwL, hwR, rfl⟩
        · show leavesIdx L ++ leavesIdx R = _
          rw [hlL, hlR, List.take_append_drop]
      simp only [List.mem_cons, List.mem_singleton, List.not_mem_nil, or_false] at ht
      rcases ht with rfl | rfl
      · exact hsplit true
      · exact hsplit false

theorem buildTrees_mem_spec {idx : List ℕ} {ratios : List ℚ} {t : LayoutNode}
    (ht : t ∈ buildTrees idx ratios) : wfTree t ∧ leavesIdx t = idx :=
  buildTreesGo_mem_spec ratios idx.length idx t ht

theorem buildTreesGo_ne_nil (ratios : List ℚ) : ∀ (fuel : ℕ) (idx : List ℕ),
    idx ≠ [] → idx.length ≤ fuel + 1 → buildTreesGo ratios fuel idx ≠ [] := by
  intro fuel
  induction fuel with
  | zero =>
    intro idx hne hlen
    rcases idx with _ | ⟨i, _ | ⟨j, rest⟩⟩
    · exact absurd rfl hne
    · simp [buildTreesGo]
    · simp only [List.length_cons] at hlen
      omega
  | succ fuel ih =>
    intro idx hne hlen
    rcases idx with _ | ⟨i, _ | ⟨j, rest⟩⟩
    · exact absurd rfl hne
    · simp [buildTreesGo]
    · have hdrop : buildTreesGo ratios fuel ((i :: j :: rest).drop 1) ≠ [] := by
        refine ih _ (by simp) ?_
        simp only [List.length_drop, List.length_cons] at *
        omega
      obtain ⟨R, hR⟩ := List.exists_mem_of_ne_nil _ hdrop
      have hL : buildLeaf i (ratios.getD i 0) ∈
          buildTreesGo ratios fuel ((i :: j :: rest).take 1) := by
        simp [buildTreesGo]
      have hmem : buildSplit true (buildLeaf i (ratios.getD i 0)) R ∈
          buildTreesGo ratios (fuel + 1) (i :: j :: rest) := by
        rw [buildTreesGo]
        rw [List.mem_flatMap]
        refine ⟨1, ?_, ?_⟩
        · rw [natRange_mem]
          simp only [List.length_cons]
          omega
        · rw [List.mem_flatMap]
          exact ⟨_, hL, by rw [List.mem_flatMap]; exact ⟨R, hR, by simp⟩⟩
      exact List.ne_nil_of_mem hmem

theorem buildTrees_ne_nil {idx : List ℕ} (ratios : List ℚ) (hne : idx ≠ []) :
    buildTrees idx ratios ≠ [] :=
  buildTreesGo_ne_nil ratios idx.length idx hne (by omega)

/-! ## Permutation enumeration -/

theorem genPermsGo_mem_perm {α : Type} : ∀ (fuel : ℕ) (l : List α)
    (p : List α), p ∈ genPermsGo fuel l → p.Perm l := by
  intro fuel
  induction fuel with
  | zero =>
    intro l p hp
    simp only [genPermsGo, List.mem_singleton] at hp
    subst hp
    exact List.Perm.refl _
  | succ fuel ih =>
    intro l p hp
    rw [genPermsGo] at hp
    by_cases h1 : l.length ≤ 1
    · rw [if_pos h1, List.mem_singleton] at hp
      subst hp
      exact List.Perm.refl _
    · rw [if_neg h1, List.mem_flatMap] at hp
      obtain ⟨x, hx, hp⟩ := hp
      rw [List.mem_map] at hp
      obtain ⟨q, hq, rfl⟩ := hp
      have hperm := ih _ q hq
      have hlt := withIdx_fst_lt l x hx
      have hget := withIdx_getElem l x hx
      obtain ⟨hlt2, hgetE⟩ := List.getElem?_eq_some.mp hget
      have hsplit : l = l.take x.1 ++ l[x.1] :: l.drop (x.1 + 1) := by
        conv_lhs => rw [← List.take_append_drop x.1 l]
        rw [List.drop_eq_getElem_cons hlt]
      have h2 : (x.2 :: q).Perm (x.2 :: (l.take x.1 ++ l.drop (x.1 + 1))) :=
        hperm.cons x.2
      have h3 : (x.2 :: q).Perm (l.take x.1 ++ x.2 :: l.drop (x.1 + 1)) :=
        h2.trans List.perm_middle.symm
      rw [hgetE] at hsplit
      rw [← hsplit] at h3
      exact h3

theorem genPerms_mem_perm {α : Type} {l p : List α}
    (hp : p ∈ generatePermutations l) : p.Perm l :=
  genPermsGo_mem_perm l.length l p hp

theorem genPermsGo_ne_nil {α : Type} : ∀ (fuel : ℕ) (l : List α),
    genPermsGo fuel l ≠ [] := by
  intro fuel
  induction fuel with
  | zero => intro l; simp [genPermsGo]
  | succ fuel ih =>
    intro l
    rw [genPermsGo]
    by_cases h1 : l.length ≤ 1
    · simp [if_pos h1]
    · rw [if_neg h1]
      rcases l with _ | ⟨a, as⟩
      · simp at h1
      · obtain ⟨q, hq⟩ := List.exists_mem_of_ne_nil _ (ih ((a :: as).take 0 ++ (a :: as).drop 1))
        have hmem : a :: q ∈ (withIdx 0 (a :: as)).flatMap (fun x =>
            (genPermsGo fuel ((a :: as).take x.1 ++ (a :: as).drop (x.1 + 1))).map
              (fun perm => x.2 :: perm)) := by
          rw [List.mem_flatMap]
          refine ⟨(0, a), ?_, ?_⟩
          · simp [withIdx]
          · rw [List.mem_map]
            exact ⟨q, hq, rfl⟩
        exact List.ne_nil_of_mem hmem

theorem genPerms_ne_nil {α : Type} (l : List α) : generatePermutations l ≠ [] :=
  genPermsGo_ne_nil l.length l

/-! ## Geometry of `layoutTree` on well-formed trees -/

theorem areaSum_append (l1 l2 : List LayoutRect) :
    areaSum (l1 ++ l2) = areaSum l1 + areaSum l2 := by
  simp [areaSum]

theorem layoutTree_map_index : ∀ (t : LayoutNode), wfTree t →
    ∀ (c : ContainerRect), (layoutTree t c).map LayoutRect.index = leavesIdx t := by
  intro t
  induction t with
  | leaf i r =>
    intro _ c
    simp [layoutTree, leavesIdx]
  | split v left right ρ ihl ihr =>
    intro hwf c
    obtain ⟨hl, hr, hρ⟩ := hwf
    have pl := wfTree_ratio_pos left hl
    have pr := wfTree_ratio_pos right hr
    cases v with
    | true =>
      rw [layoutTree]
      rw [if_neg (by push_neg; positivity)]
      simp only [List.map_append, leavesIdx]
      rw [ihl hl, ihr hr]
    | false =>
      have hρpos : 0 < ρ := by
        rw [hρ]
        simp only [if_neg (by simp : ¬(false = true))]
        exact one_div_pos.mpr (add_pos (one_div_pos.mpr pl) (one_div_pos.mpr pr))
      rw [layoutTree]
      rw [if_neg (by push_neg; exact hρpos)]
      simp only [List.map_append, leavesIdx]
      rw [ihl hl, ihr hr]

theorem layoutTree_length {t : LayoutNode} (hwf : wfTree t) (c : ContainerRect) :
    (layoutTree t c).length = (leavesIdx t).length := by
  have := layoutTree_map_index t hwf c
  calc (layoutTree t c).length = ((layoutTree t c).map LayoutRect.index).length := by
        rw [List.length_map]
    _ = (leavesIdx t).length := by rw [this]

theorem layoutTree_eq_noFallback : ∀ (t : LayoutNode), wfTree t →
    ∀ (c : ContainerRect), layoutTree t c = layoutTreeNoFallback t c := by
  intro t
  induction t with
  | leaf i r => intro _ c; rfl
  | split v left right ρ ihl ihr =>
    intro hwf c
    obtain ⟨hl, hr, hρ⟩ := hwf
    have pl := wfTree_ratio_pos left hl
    have pr := wfTree_ratio_pos right hr
    cases v with
    | true =>
      rw [layoutTree, layoutTreeNoFallback]
      rw [if_neg (by push_neg; positivity)]
      simp only [ihl hl, ihr hr]
    | false =>
      have hρpos : 0 < ρ := by
        rw [hρ]
        simp only [if_neg (by simp : ¬(false = true))]
        exact one_div_pos.mpr (add_pos (one_div_pos.mpr pl) (one_div_pos.mpr pr))
      rw [layoutTree, layoutTreeNoFallback]
      rw [if_neg (by push_neg; exact hρpos)]
      simp only [ihl hl, ihr hr]

theorem layoutTree_area : ∀ (t : LayoutNode), wfTree t →
    ∀ (c : ContainerRect), 0 ≤ c.width → 0 ≤ c.height →
    areaSum (layoutTree t c) ≤ c.width * c.height := by
  intro t
  induction t with
  | leaf i r =>
    intro _ c hw hh
    simp [layoutTree, areaSum]
  | split v left right ρ ihl ihr =>
    intro hwf c hw hh
    obtain ⟨hl, hr, hρ⟩ := hwf
    have pl := wfTree_ratio_pos left hl
    have pr := wfTree_ratio_pos right hr
    cases v with
    | true =>
      rw [layoutTree]
      rw [if_neg (by push_neg; positivity)]
      simp only [areaSum_append]
      set s := left.ratio + right.ratio with hs
      have hspos : 0 < s := by positivity
      set mh := min c.height (c.width / s) with hmh
      have hmhnn : 0 ≤ mh := le_min hh (div_nonneg hw hspos.le)
      have hmh_h : mh ≤ c.height := min_le_left _ _
      have hmh_w : mh * s ≤ c.width := by
        have h1 : mh ≤ c.width / s := min_le_right _ _
        rwa [le_div_iff₀ hspos] at h1
      have hbl := ihl hl ⟨c.x + (c.width - s * mh) / 2, c.y + (c.height - mh) / 2,
        mh * left.ratio, mh⟩ (by positivity) hmhnn
      have hbr := ihr hr ⟨c.x + (c.width - s * mh) / 2 + mh * left.ratio,
        c.y + (c.height - mh) / 2, mh * right.ratio, mh⟩ (by positivity) hmhnn
      simp only at hbl hbr
      have hsum : mh * left.ratio * mh + mh * right.ratio * mh = (mh * s) * mh := by
        rw [hs]; ring
      nlinarith [mul_le_mul hmh_w hmh_h hmhnn hw]
    | false =>
      have hρpos : 0 < ρ := by
        rw [hρ]
        simp only [if_neg (by simp : ¬(false = true))]
        exact one_div_pos.mpr (add_pos (one_div_pos.mpr pl) (one_div_pos.mpr pr))
      rw [layoutTree]
      rw [if_neg (by push_neg; exact hρpos)]
      simp only [areaSum_append]
      set aw := min c.width (c.height * ρ) with haw
      have hawnn : 0 ≤ aw := le_min hw (by positivity)
      have haw_w : aw ≤ c.width := min_le_left _ _
      have haw_h : aw / ρ ≤ c.height := by
        have h1 : aw ≤ c.height * ρ := min_le_right _ _
        rw [div_le_iff₀ hρpos]
        linarith
      have hbl := ihl hl ⟨c.x + (c.width - aw) / 2, c.y + (c.height - aw / ρ) / 2,
        aw, aw / left.ratio⟩ hawnn (by positivity)
      have hbr := ihr hr ⟨c.x + (c.width - aw) / 2,
        c.y + (c.height - aw / ρ) / 2 + aw / left.ratio,
        aw, aw / right.ratio⟩ hawnn (by positivity)
      simp only at hbl hbr
      have hinv : 1 / ρ = 1 / left.ratio + 1 / right.ratio := by
        rw [hρ]
        simp only [if_neg (by simp : ¬(false = true))]
        rw [one_div_one_div]
      have hsum : aw * (aw / left.ratio) + aw * (aw / right.ratio) = aw * (aw / ρ) := by
        have e1 : aw / left.ratio = aw * (1 / left.ratio) := by ring
        have e2 : aw / right.ratio = aw * (1 / right.ratio) := by ring
        have e3 : aw / ρ = aw * (1 / ρ) := by ring
        rw [e1, e2, e3, hinv]
        ring
      nlinarith [mul_le_mul haw_w haw_h (by positivity) hw]

/-! ## The best-candidate fold -/

theorem pickBestStep_none (l : List LayoutRect) :
    pickBestStep none l = some (l, areaSum l) := rfl

theorem pickBestStep_some (bl : List LayoutRect) (bs : ℚ) (l : List LayoutRect) :
    pickBestStep (some (bl, bs)) l =
      if bs < areaSum l then some (l, areaSum l) else some (bl, bs) := rfl

theorem pickBestFold_spec : ∀ (cands : List (List LayoutRect))
    (b0 : List LayoutRect),
    ∃ bl, cands.foldl pickBestStep (some (b0, areaSum b0)) =
        some (bl, areaSum bl) ∧
      (bl = b0 ∨ bl ∈ cands) ∧ areaSum b0 ≤ areaSum bl ∧
      ∀ c ∈ cands, areaSum c ≤ areaSum bl := by
  intro cands
  induction cands with
  | nil =>
    intro b0
    exact ⟨b0, rfl, Or.inl rfl, le_refl _, by simp⟩
  | cons c cs ih =>
    intro b0
    simp only [List.foldl_cons, pickBestStep_some]
    by_cases h : areaSum b0 < areaSum c
    · rw [if_pos h]
      obtain ⟨bl, h1, h2, h3, h4⟩ := ih c
      refine ⟨bl, h1, ?_, le_trans h.le h3, ?_⟩
      · rcases h2 with rfl | h2
        · exact Or.inr (List.mem_cons_self _ _)
        · exact Or.inr (List.mem_cons_of_mem _ h2)
      · intro d hd
        rcases List.mem_cons.mp hd with rfl | hd
        · exact h3
        · exact h4 d hd
    · rw [if_neg h]
      obtain ⟨bl, h1, h2, h3, h4⟩ := ih b0
      refine ⟨bl, h1, ?_, h3, ?_⟩
      · rcases h2 with rfl | h2
        · exact Or.inl rfl
        · exact Or.inr (List.mem_cons_of_mem _ h2)
      · intro d hd
        rcases List.mem_cons.mp hd with rfl | hd
        · exact le_trans (not_lt.mp h) h3
        · exact h4 d hd

theorem pickBest_spec {cands : List (List LayoutRect)} (hne : cands ≠ []) :
    ∃ bl, pickBest cands = some (bl, areaSum bl) ∧ bl ∈ cands ∧
      ∀ c ∈ cands, areaSum c ≤ areaSum bl := by
  rcases cands with _ | ⟨c, cs⟩
  · exact absurd rfl hne
  · unfold pickBest
    simp only [List.foldl_cons, pickBestStep_none]
    obtain ⟨bl, h1, h2, h3, h4⟩ := pickBestFold_spec cs c
    refine ⟨bl, h1, ?_, ?_⟩
    · rcases h2 with rfl | h2
      · exact List.mem_cons_self _ _
      · exact List.mem_cons_of_mem _ h2
    · intro d hd
      rcases List.mem_cons.mp hd with rfl | hd
      · exact h3
      · exact h4 d hd

/-! ## Characterization of the multi-photo branch of the solver -/

theorem areaSum_map_shift (l : List LayoutRect) (f : LayoutRect → ℚ) :
    areaSum (l.map (fun r => { r with x := f r })) = areaSum l := by
  unfold areaSum
  rw [List.map_map]
  rfl

theorem map_index_map_shift (l : List LayoutRect) (f : LayoutRect → ℚ) :
    (l.map (fun r => { r with x := f r })).map LayoutRect.index =
      l.map LayoutRect.index := by
  rw [List.map_map]
  rfl

theorem computeOptimalLayout_multi (as : List ℚ) (W H : ℚ)
    (h2 : 2 ≤ as.length) :
    ∃ bl : List LayoutRect,
      (∃ p ∈ generatePermutations (List.range as.length), ∃ t ∈ buildTrees p as,
        bl = layoutTree t ⟨0, 0, W, H⟩) ∧
      (∀ p ∈ generatePermutations (List.range as.length), ∀ t ∈ buildTrees p as,
        areaSum (layoutTree t ⟨0, 0, W, H⟩) ≤ areaSum bl) ∧
      ((computeOptimalLayout as W H).rects.map LayoutRect.index).Perm
        (bl.map LayoutRect.index) ∧
      areaSum (computeOptimalLayout as W H).rects = areaSum bl ∧
      (computeOptimalLayout as W H).rects.length = bl.length := by
  have hlen0 : ¬ as.length = 0 := by omega
  have hlen1 : ¬ as.length = 1 := by omega
  have hcne : (generatePermutations (List.range as.length)).flatMap (fun perm =>
      (buildTrees perm as).map (fun tree =>
        layoutTree tree ⟨0, 0, W, H⟩)) ≠ [] := by
    obtain ⟨p0, hp0⟩ := List.exists_mem_of_ne_nil _
      (genPerms_ne_nil (List.range as.length))
    have hp0len : p0.length = as.length := by
      have := (genPerms_mem_perm hp0).length_eq
      simpa using this
    have hp0ne : p0 ≠ [] := by
      intro hnil
      rw [hnil] at hp0len
      simp at hp0len
      omega
    obtain ⟨t0, ht0⟩ := List.exists_mem_of_ne_nil _ (buildTrees_ne_nil as hp0ne)
    exact List.ne_nil_of_mem
      (List.mem_flatMap.mpr ⟨p0, hp0, List.mem_map.mpr ⟨t0, ht0, rfl⟩⟩)
  obtain ⟨bl, hpb, hblmem, hmax⟩ := pickBest_spec hcne
  have hresult : computeOptimalLayout as W H =
      let sorted := bl.insertionSort (fun a b => a.index ≤ b.index)
      let minX := (reduceMin (sorted.map LayoutRect.x)).getD 0
      let maxRight := sorted.foldl (fun m r => max m (r.x + r.width)) 0
      let width := max (maxRight - minX) 1
      ⟨sorted.map (fun r => { r with x := r.x - minX }), min width W⟩ := by
    rw [computeOptimalLayout]
    rw [if_neg hlen0, if_neg hlen1]
    simp only [hpb]
  rw [List.mem_flatMap] at hblmem
  obtain ⟨p, hp, hblmem⟩ := hblmem
  rw [List.mem_map] at hblmem
  obtain ⟨t, ht, hbl⟩ := hblmem
  refine ⟨bl, ⟨p, hp, t, ht, hbl.symm⟩, ?_, ?_, ?_, ?_⟩
  · intro p' hp' t' ht'
    refine hmax _ ?_
    rw [List.mem_flatMap]
    exact ⟨p', hp', List.mem_map.mpr ⟨t', ht', rfl⟩⟩
  · rw [hresult]
    simp only
    rw [map_index_map_shift]
    exact (List.perm_insertionSort _ _).map LayoutRect.index
  · rw [hresult]
    simp only
    rw [areaSum_map_shift]
    unfold areaSum
    exact ((List.perm_insertionSort _ bl).map _).sum_eq
  · rw [hresult]
    simp only [List.length_map]
    exact (List.perm_insertionSort _ bl).length_eq

/-! ## Totality and count of the solver -/

theorem wfTree_allPos : ∀ (t : LayoutNode), wfTree t → treeAllPos t := by
  intro t
  induction t with
  | leaf i r =>
    intro h
    simp only [wfTree] at h
    simp only [treeAllPos]
    linarith
  | split v left right ρ ihl ihr =>
    intro hwf
    have hρ := wfTree_ratio_pos _ hwf
    obtain ⟨hl, hr, _⟩ := hwf
    exact ⟨by simpa using hρ, ihl hl, ihr hr⟩

theorem computeOptimalLayout_length (as : List ℚ) (W H : ℚ) :
    (computeOptimalLayout as W H).rects.length = as.length := by
  by_cases h0 : as.length = 0
  · rw [computeOptimalLayout, if_pos h0, h0]
    rfl
  · by_cases h1 : as.length = 1
    · rw [computeOptimalLayout, if_neg h0, if_pos h1, h1]
      rfl
    · obtain ⟨bl, ⟨p, hp, t, ht, hbl⟩, _, _, _, hlen⟩ :=
        computeOptimalLayout_multi as W H (by omega)
      obtain ⟨hwf, hleaves⟩ := buildTrees_mem_spec ht
      rw [hlen, hbl, layoutTree_length hwf, hleaves]
      have := (genPerms_mem_perm hp).length_eq
      simpa using this

/-- Claim C1: for 1-4 aspect ratios and a positive container,
`computeOptimalLayout` returns exactly one rect per input index (each
original index appearing exactly once) and the summed rect area is at most
the container area. -/
theorem computeOptimalLayout_count_and_area (as : List ℚ) (W H : ℚ)
    (h1 : 1 ≤ as.length) (h4 : as.length ≤ 4) (hW : 0 < W) (hH : 0 < H) :
    (computeOptimalLayout as W H).rects.length = as.length ∧
    ((computeOptimalLayout as W H).rects.map LayoutRect.index).Perm
      (List.range as.length) ∧
    areaSum (computeOptimalLayout as W H).rects ≤ W * H := by
  refine ⟨computeOptimalLayout_length as W H, ?_, ?_⟩
  · by_cases hl1 : as.length = 1
    · rw [computeOptimalLayout, if_neg (by omega), if_pos hl1, hl1]
      simp [List.range_succ]
    · obtain ⟨bl, ⟨p, hp, t, ht, hbl⟩, _, hperm, _, _⟩ :=
        computeOptimalLayout_multi as W H (by omega)
      obtain ⟨hwf, hleaves⟩ := buildTrees_mem_spec ht
      refine hperm.trans ?_
      rw [hbl, layoutTree_map_index t hwf, hleaves]
      exact genPerms_mem_perm hp
  · by_cases hl1 : as.length = 1
    · rw [computeOptimalLayout, if_neg (by omega), if_pos hl1]
      have harea : areaSum [(⟨0, 0, 0,
          min W (max (H * jsOr (as.getD 0 0) 1) (W * (1/4))), H⟩ : LayoutRect)] =
          min W (max (H * jsOr (as.getD 0 0) 1) (W * (1/4))) * H := by
        simp [areaSum]
      rw [harea]
      exact mul_le_mul_of_nonneg_right (min_le_left _ _) hH.le
    · obtain ⟨bl, ⟨p, hp, t, ht, hbl⟩, _, _, harea, _⟩ :=
        computeOptimalLayout_multi as W H (by omega)
      obtain ⟨hwf, _⟩ := buildTrees_mem_spec ht
      rw [harea, hbl]
      exact layoutTree_area t hwf ⟨0, 0, W, H⟩ hW.le hH.le

/-- Claim C8: for a single positive aspect ratio the solver returns one
rect at the origin of full container height whose width is
`clamp(H * r, 0.25 * W, W)`; that width lies in `[0.25 * W, W]` and equals
the reported `usedWidth`. -/
theorem computeOptimalLayout_single (r W H : ℚ) (hr : 0 < r) (hW : 0 < W) :
    (computeOptimalLayout [r] W H).rects =
      [⟨0, 0, 0, min (max (H * r) (W * (1/4))) W, H⟩] ∧
    (computeOptimalLayout [r] W H).usedWidth =
      min (max (H * r) (W * (1/4))) W ∧
    W * (1/4) ≤ min (max (H * r) (W * (1/4))) W ∧
    min (max (H * r) (W * (1/4))) W ≤ W := by
  have hcomm : min W (max (H * jsOr ([r].getD 0 0) 1) (W * (1/4))) =
      min (max (H * r) (W * (1/4))) W := by
    have hgd : [r].getD 0 0 = r := rfl
    rw [hgd]
    unfold jsOr
    rw [if_neg (ne_of_gt hr)]
    exact min_comm _ _
  refine ⟨?_, ?_, ?_, min_le_right _ _⟩
  · rw [computeOptimalLayout]
    rw [if_neg (by simp), if_pos (by simp)]
    simp only [hcomm]
  · rw [computeOptimalLayout]
    rw [if_neg (by simp), if_pos (by simp)]
    simp only [hcomm]
  · exact le_min (le_max_right _ _) (by linarith)

/-- Claim C9: the solver is total on degenerate inputs (it always returns
`aspectRatios.length` rects, zero or negative ratios included), every tree
it builds has all leaf ratios floored to at least `0.1` and every node
ratio strictly positive, and on such trees `layoutTree` coincides with the
fallback-free `layoutTreeNoFallback`, i.e. the degenerate-ratio fallback
branches are unreachable. -/
theorem computeOptimalLayout_total_no_fallback (as : List ℚ) (W H : ℚ) :
    (computeOptimalLayout as W H).rects.length = as.length ∧
    ∀ p ∈ generatePermutations (List.range as.length), ∀ t ∈ buildTrees p as,
      wfTree t ∧ treeAllPos t ∧
      ∀ c : ContainerRect, layoutTree t c = layoutTreeNoFallback t c := by
  refine ⟨computeOptimalLayout_length as W H, ?_⟩
  intro p _hp t ht
  obtain ⟨hwf, _⟩ := buildTrees_mem_spec ht
  exact ⟨hwf, wfTree_allPos t hwf, fun c => layoutTree_eq_noFallback t hwf c⟩

/-! ## Relabeling and permutation invariance of candidate scores -/

theorem relabel_ratio (σ : ℕ → ℕ) : ∀ (t : LayoutNode),
    (relabel σ t).ratio = t.ratio := by
  intro t
  cases t <;> rfl

theorem relabel_buildSplit (σ : ℕ → ℕ) (v : Bool) (L R : LayoutNode) :
    relabel σ (buildSplit v L R) = buildSplit v (relabel σ L) (relabel σ R) := by
  show LayoutNode.split v (relabel σ L) (relabel σ R)
      (if v = true then L.ratio + R.ratio
       else 1 / (1 / L.ratio + 1 / R.ratio)) = _
  unfold buildSplit
  rw [relabel_ratio, relabel_ratio]

theorem buildTreesGo_relabel (as bs : List ℚ) (σ : ℕ → ℕ) :
    ∀ (fuel : ℕ) (p : List ℕ), (∀ i ∈ p, bs.getD i 0 = as.getD (σ i) 0) →
    buildTreesGo as fuel (p.map σ) = (buildTreesGo bs fuel p).map (relabel σ) := by
  intro fuel
  induction fuel with
  | zero =>
    intro p hpt
    rcases p with _ | ⟨i, _ | ⟨j, rest⟩⟩
    · rfl
    · simp only [List.map_cons, List.map_nil, buildTreesGo, buildLeaf]
      rw [hpt i (by simp)]
      rfl
    · rfl
  | succ fuel ih =>
    intro p hpt
    rcases p with _ | ⟨i, _ | ⟨j, rest⟩⟩
    · rfl
    · simp only [List.map_cons, List.map_nil, buildTreesGo, buildLeaf]
      rw [hpt i (by simp)]
      rfl
    · simp only [List.map_cons, buildTreesGo, List.length_cons, List.length_map]
      rw [List.map_flatMap]
      refine flatMap_congr_mem (fun s hs => ?_)
      have htake : (σ i :: σ j :: rest.map σ).take s = ((i :: j :: rest).take s).map σ := by
        rw [List.map_take]
        rfl
      have hdrop : (σ i :: σ j :: rest.map σ).drop s = ((i :: j :: rest).drop s).map σ := by
        rw [List.map_drop]
        rfl
      rw [htake, hdrop]
      rw [ih ((i :: j :: rest).take s)
        (fun i hi => hpt i (List.mem_of_mem_take hi))]
      rw [List.map_flatMap, List.flatMap_map]
      refine flatMap_congr_mem (fun L hL => ?_)
      rw [ih ((i :: j :: rest).drop s)
        (fun i hi => hpt i (List.mem_of_mem_drop hi))]
      rw [List.map_flatMap, List.flatMap_map]
      refine flatMap_congr_mem (fun R hR => ?_)
      simp only [List.map_cons, List.map_nil]
      rw [relabel_buildSplit, relabel_buildSplit]

theorem buildTrees_relabel (as bs : List ℚ) (σ : ℕ → ℕ) (p : List ℕ)
    (hpt : ∀ i ∈ p, bs.getD i 0 = as.getD (σ i) 0) :
    buildTrees (p.map σ) as = (buildTrees p bs).map (relabel σ) := by
  unfold buildTrees
  rw [List.length_map]
  exact buildTreesGo_relabel as bs σ p.length p hpt

theorem areaSum_layoutTree_relabel (σ : ℕ → ℕ) : ∀ (t : LayoutNode)
    (c : ContainerRect),
    areaSum (layoutTree (relabel σ t) c) = areaSum (layoutTree t c) := by
  intro t
  induction t with
  | leaf i r =>
    intro c
    simp [relabel, layoutTree, areaSum]
  | split v left right ρ ihl ihr =>
    intro c
    cases v with
    | true =>
      rw [relabel, layoutTree, layoutTree]
      rw [relabel_ratio, relabel_ratio]
      by_cases hneg : left.ratio + right.ratio ≤ 0
      · rw [if_pos hneg, if_pos hneg]
        simp [areaSum]
      · rw [if_neg hneg, if_neg hneg]
        simp only [areaSum_append]
        rw [ihl, ihr]
    | false =>
      rw [relabel, layoutTree, layoutTree]
      by_cases hneg : ρ ≤ 0
      · rw [if_pos hneg, if_pos hneg]
        simp [areaSum]
      · rw [if_neg hneg, if_neg hneg]
        simp only [areaSum_append]
        rw [relabel_ratio, relabel_ratio, ihl, ihr]

/-! ## Completeness and distinctness of the permutation enumeration -/

theorem genPermsGo_mem_of_perm {α : Type} [DecidableEq α] :
    ∀ (fuel : ℕ) (l p : List α), l.length ≤ fuel → l.Nodup → p.Perm l →
    p ∈ genPermsGo fuel l := by
  intro fuel
  induction fuel with
  | zero =>
    intro l p hlen _ hperm
    have : l = [] := List.length_eq_zero.mp (by omega)
    subst this
    simp only [genPermsGo, List.mem_singleton]
    exact List.Perm.eq_nil hperm
  | succ fuel ih =>
    intro l p hlen hnd hperm
    rw [genPermsGo]
    by_cases h1 : l.length ≤ 1
    · rw [if_pos h1, List.mem_singleton]
      rcases l with _ | ⟨a, _ | _⟩
      · exact List.Perm.eq_nil hperm
      · exact List.perm_singleton.mp hperm
      · simp at h1
    · rw [if_neg h1]
      rcases p with _ | ⟨a, q⟩
      · have := hperm.length_eq
        simp at this
        omega
      · have ha : a ∈ l := hperm.mem_iff.mp (by simp)
        obtain ⟨idx, hidx, hget⟩ := List.mem_iff_getElem.mp ha
        have hsplit : l = l.take idx ++ a :: l.drop (idx + 1) := by
          conv_lhs => rw [← List.take_append_drop idx l]
          rw [List.drop_eq_getElem_cons hidx, hget]
        have hq : q.Perm (l.take idx ++ l.drop (idx + 1)) := by
          have h2 : (a :: q).Perm (a :: (l.take idx ++ l.drop (idx + 1))) := by
            refine hperm.trans ?_
            conv_lhs => rw [hsplit]
            exact List.perm_middle
          exact h2.cons_inv
        have hrestnd : (l.take idx ++ l.drop (idx + 1)).Nodup := by
          have hsub : (l.take idx ++ l.drop (idx + 1)).Sublist
              (l.take idx ++ a :: l.drop (idx + 1)) :=
            List.Sublist.append_left (List.sublist_cons_self _ _) _
          rw [hsplit] at hnd
          exact hsub.nodup hnd
        have hrestlen : (l.take idx ++ l.drop (idx + 1)).length = l.length - 1 := by
          simp only [List.length_append, List.length_take, List.length_drop]
          omega
        rw [List.mem_flatMap]
        refine ⟨(idx, a), ?_, ?_⟩
        · have := withIdx_mem_of l 0 idx hidx
          simpa [hget] using this
        · rw [List.mem_map]
          exact ⟨q, ih (l.take idx ++ l.drop (idx + 1)) q (by omega) hrestnd hq, rfl⟩


theorem withIdx_pairwise {α : Type} : ∀ (l : List α) (k : ℕ),
    List.Pairwise (fun x y : ℕ × α => x.1 < y.1) (withIdx k l) := by
  intro l
  induction l with
  | nil => intro k; simp [withIdx]
  | cons a as ih =>
    intro k
    simp only [withIdx]
    refine List.Pairwise.cons ?_ (ih (k + 1))
    intro y hy
    have := (withIdx_mem_bounds as (k + 1) y hy).1
    simp only
    omega

theorem genPermsGo_nodup {α : Type} : ∀ (fuel : ℕ) (l : List α), l.Nodup →
    (genPermsGo fuel l).Nodup := by
  intro fuel
  induction fuel with
  | zero =>
    intro l _
    simp [genPermsGo]
  | succ fuel ih =>
    intro l hnd
    rw [genPermsGo]
    by_cases h1 : l.length ≤ 1
    · rw [if_pos h1]
      simp
    · rw [if_neg h1]
      rw [List.nodup_flatMap]
      constructor
      · intro x hx
        refine List.Nodup.map_on ?_ (ih _ ?_)
        · intro p _ q _ hpq
          exact List.cons_injective hpq
        · have hlt := withIdx_fst_lt l x hx
          have hsplit : l = l.take x.1 ++ l[x.1] :: l.drop (x.1 + 1) := by
            conv_lhs => rw [← List.take_append_drop x.1 l]
            rw [List.drop_eq_getElem_cons hlt]
          have hsub : (l.take x.1 ++ l.drop (x.1 + 1)).Sublist
              (l.take x.1 ++ l[x.1] :: l.drop (x.1 + 1)) :=
            List.Sublist.append_left (List.sublist_cons_self _ _) _
          conv_rhs at hnd => rw [hsplit]
          exact hsub.nodup hnd
      · refine List.Pairwise.imp_of_mem ?_ (withIdx_pairwise l 0)
        intro x y hx hy hlt
        have hltx := withIdx_fst_lt l x hx
        have hlty := withIdx_fst_lt l y hy
        have hgx := withIdx_getElem l x hx
        have hgy := withIdx_getElem l y hy
        obtain ⟨_, hgx⟩ := List.getElem?_eq_some.mp hgx
        obtain ⟨_, hgy⟩ := List.getElem?_eq_some.mp hgy
        have hne : x.2 ≠ y.2 := by
          intro he
          have : l[x.1] = l[y.1] := by rw [hgx, hgy, he]
          have := (hnd.getElem_inj_iff).mp this
          omega
        intro p hp hq
        rw [List.mem_map] at hp hq
        obtain ⟨p1, _, hp1⟩ := hp
        obtain ⟨q1, _, hq1⟩ := hq
        rw [← hp1] at hq1
        exact hne (List.head_eq_of_cons_eq hq1.symm ▸ rfl)

theorem genPerms_mem_of_perm {α : Type} [DecidableEq α] {l p : List α}
    (hnd : l.Nodup) (hperm : p.Perm l) : p ∈ generatePermutations l :=
  genPermsGo_mem_of_perm l.length l p (le_refl _) hnd hperm

theorem genPerms_nodup {α : Type} {l : List α} (hnd : l.Nodup) :
    (generatePermutations l).Nodup :=
  genPermsGo_nodup l.length l hnd

theorem perm_of_nodup_subset_length {α : Type} {l1 l2 : List α}
    (hnd : l1.Nodup) (hsub : l1 ⊆ l2) (hlen : l1.length = l2.length) :
    l1.Perm l2 := by
  obtain ⟨l3, h3, hsub3⟩ := hnd.subperm hsub
  have hlen3 : l3.length = l2.length := by
    rw [h3.length_eq, hlen]
  rw [← hsub3.eq_of_length hlen3]
  exact h3.symm

theorem genPerms_range_map_perm (n : ℕ) (σ : ℕ → ℕ)
    (hmap : ∀ i < n, σ i < n)
    (hinj : ∀ i j, i < n → j < n → σ i = σ j → i = j) :
    ((generatePermutations (List.range n)).map (fun p => p.map σ)).Perm
      (generatePermutations (List.range n)) := by
  have hP := genPerms_nodup (List.nodup_range n)
  have hmemrange : ∀ p ∈ generatePermutations (List.range n), ∀ i ∈ p, i < n := by
    intro p hp i hi
    have := (genPerms_mem_perm hp).mem_iff.mp hi
    simpa using this
  have himg : ∀ p ∈ generatePermutations (List.range n),
      (p.map σ).Perm (List.range n) := by
    intro p hp
    have h1 : (p.map σ).Perm ((List.range n).map σ) :=
      (genPerms_mem_perm hp).map σ
    refine h1.trans ?_
    refine perm_of_nodup_subset_length ?_ ?_ (by simp)
    · refine List.Nodup.map_on ?_ (List.nodup_range n)
      intro i hi j hj
      exact hinj i j (by simpa using hi) (by simpa using hj)
    · intro a ha
      rw [List.mem_map] at ha
      obtain ⟨i, hi, rfl⟩ := ha
      simp only [List.mem_range] at hi ⊢
      exact hmap i hi
  refine perm_of_nodup_subset_length ?_ ?_ (by simp)
  · refine List.Nodup.map_on ?_ hP
    intro p hp q hq hpq
    have hplen : p.length = n := by simpa using (genPerms_mem_perm hp).length_eq
    have hqlen : q.length = n := by simpa using (genPerms_mem_perm hq).length_eq
    refine List.ext_getElem (by omega) ?_
    intro i hip hiq
    have hip2 : i < (p.map σ).length := by simpa using hip
    have hiq2 : i < (q.map σ).length := by simpa using hiq
    have hgp : (p.map σ)[i] = σ p[i] := by simp
    have hgq : (q.map σ)[i] = σ q[i] := by simp
    have : σ p[i] = σ q[i] := by
      rw [← hgp, ← hgq]
      congr 1
    refine hinj _ _ ?_ ?_ this
    · exact hmemrange p hp _ (List.getElem_mem hip)
    · exact hmemrange q hq _ (List.getElem_mem hiq)
  · intro x hx
    rw [List.mem_map] at hx
    obtain ⟨p, hp, rfl⟩ := hx
    exact genPerms_mem_of_perm (List.nodup_range n) (himg p hp)

theorem map_perm_range {n : ℕ} {σ : ℕ → ℕ}
    (hmap : ∀ i < n, σ i < n)
    (hinj : ∀ i j, i < n → j < n → σ i = σ j → i = j)
    {p : List ℕ} (hp : p.Perm (List.range n)) :
    (p.map σ).Perm (List.range n) := by
  refine ((hp.map σ).trans ?_)
  refine perm_of_nodup_subset_length ?_ ?_ (by simp)
  · refine List.Nodup.map_on ?_ (List.nodup_range n)
    intro i hi j hj
    exact hinj i j (by simpa using hi) (by simpa using hj)
  · intro a ha
    rw [List.mem_map] at ha
    obtain ⟨i, hi, rfl⟩ := ha
    simp only [List.mem_range] at hi ⊢
    exact hmap i hi

/-- Amended claim C5: solving a permuted aspect-ratio list yields a layout
with the same number of rects and the same total covered area as solving
the original list.  (`σ` carries the permutation: entry `i` of `bs` is
entry `σ i` of `as`.)  The multiset of rect shapes is NOT preserved in
general — see the counterexample theorem — because distinct candidate
layouts can tie on covered area and the tie is broken by enumeration
order. -/
theorem computeOptimalLayout_perm_area (as bs : List ℚ) (W H : ℚ) (σ : ℕ → ℕ)
    (hlen : bs.length = as.length)
    (hmap : ∀ i < as.length, σ i < as.length)
    (hinj : ∀ i j, i < as.length → j < as.length → σ i = σ j → i = j)
    (hpt : ∀ i < as.length, bs.getD i 0 = as.getD (σ i) 0) :
    areaSum (computeOptimalLayout bs W H).rects =
      areaSum (computeOptimalLayout as W H).rects ∧
    (computeOptimalLayout bs W H).rects.length =
      (computeOptimalLayout as W H).rects.length := by
  refine ⟨?_, by rw [computeOptimalLayout_length, computeOptimalLayout_length, hlen]⟩
  by_cases h0 : as.length = 0
  · have hbs : bs = [] := List.length_eq_zero.mp (by omega)
    have has : as = [] := List.length_eq_zero.mp h0
    rw [hbs, has]
  by_cases h1 : as.length = 1
  · have hbs : bs = as := by
      refine List.ext_getElem (by omega) ?_
      intro i hib hia
      have hi0 : i = 0 := by omega
      subst hi0
      have hσ0 : σ 0 = 0 := by
        have := hmap 0 (by omega)
        omega
      have := hpt 0 (by omega)
      rw [hσ0] at this
      rw [List.getD_eq_getElem bs 0 hib, List.getD_eq_getElem as 0 hia] at this
      exact this
    rw [hbs]
  -- main case: at least two photos
  have h2 : 2 ≤ as.length := by omega
  have h2b : 2 ≤ bs.length := by omega
  -- inverse of σ on the index range
  have hsurj : ∀ j, ∃ i, j < as.length → (i < as.length ∧ σ i = j) := by
    intro j
    by_cases hj : j < as.length
    · have hfinj : Function.Injective
          (fun i : Fin as.length => (⟨σ i.1, hmap i.1 i.2⟩ : Fin as.length)) := by
        intro a b hab
        have := hinj a.1 b.1 a.2 b.2 (by simpa using congrArg Fin.val hab)
        exact Fin.ext this
      have hfsurj := Finite.surjective_of_injective hfinj
      obtain ⟨i, hi⟩ := hfsurj ⟨j, hj⟩
      exact ⟨i.1, fun _ => ⟨i.2, by simpa using congrArg Fin.val hi⟩⟩
    · exact ⟨0, fun h => absurd h hj⟩
  obtain ⟨τ, hτ⟩ := Classical.axiomOfChoice hsurj
  have hτmap : ∀ j < as.length, τ j < as.length := fun j hj => (hτ j hj).1
  have hτinj : ∀ i j, i < as.length → j < as.length → τ i = τ j → i = j := by
    intro i j hi hj he
    have h1 := (hτ i hi).2
    have h2 := (hτ j hj).2
    rw [← h1, ← h2, he]
  have hτpt : ∀ i < as.length, as.getD i 0 = bs.getD (τ i) 0 := by
    intro i hi
    have h1 := hpt (τ i) (hτmap i hi)
    rw [(hτ i hi).2] at h1
    exact h1.symm
  obtain ⟨blA, ⟨pA, hpA, tA, htA, hblA⟩, hmaxA, _, hareaA, _⟩ :=
    computeOptimalLayout_multi as W H h2
  obtain ⟨blB, ⟨pB, hpB, tB, htB, hblB⟩, hmaxB, _, hareaB, _⟩ :=
    computeOptimalLayout_multi bs W H h2b
  rw [hlen] at hpB hmaxB
  rw [hareaA, hareaB]
  have hpBr := genPerms_mem_perm hpB
  have hpAr := genPerms_mem_perm hpA
  -- direction 1: the best of bs is at most the best of as
  have hd1 : areaSum blB ≤ areaSum blA := by
    have hptB : ∀ i ∈ pB, bs.getD i 0 = as.getD (σ i) 0 := by
      intro i hi
      refine hpt i ?_
      have := hpBr.mem_iff.mp hi
      simpa using this
    have hrel : buildTrees (pB.map σ) as = (buildTrees pB bs).map (relabel σ) :=
      buildTrees_relabel as bs σ pB hptB
    have hmem : relabel σ tB ∈ buildTrees (pB.map σ) as := by
      rw [hrel, List.mem_map]
      exact ⟨tB, htB, rfl⟩
    have hpmem : pB.map σ ∈ generatePermutations (List.range as.length) :=
      genPerms_mem_of_perm (List.nodup_range _) (map_perm_range hmap hinj hpBr)
    have := hmaxA (pB.map σ) hpmem (relabel σ tB) hmem
    rw [areaSum_layoutTree_relabel] at this
    rw [hblB]
    exact this
  -- direction 2: the best of as is at most the best of bs
  have hd2 : areaSum blA ≤ areaSum blB := by
    have hptA : ∀ i ∈ pA, as.getD i 0 = bs.getD (τ i) 0 := by
      intro i hi
      refine hτpt i ?_
      have := hpAr.mem_iff.mp hi
      simpa using this
    have hrel : buildTrees (pA.map τ) bs = (buildTrees pA as).map (relabel τ) :=
      buildTrees_relabel bs as τ pA hptA
    have hmem : relabel τ tA ∈ buildTrees (pA.map τ) bs := by
      rw [hrel, List.mem_map]
      exact ⟨tA, htA, rfl⟩
    have hpmem : pA.map τ ∈ generatePermutations (List.range as.length) :=
      genPerms_mem_of_perm (List.nodup_range _) (map_perm_range hτmap hτinj hpAr)
    have := hmaxB (pA.map τ) hpmem (relabel τ tA) hmem
    rw [areaSum_layoutTree_relabel] at this
    rw [hblA]
    exact this
  exact le_antisymm hd1 hd2

set_option maxRecDepth 100000 in
set_option maxHeartbeats 4000000 in
/-- Counterexample to claim C5 as stated: `[1, 1/2, 2]` is a permutation of
`[1, 2, 1/2]` (entry `i` of the first is entry `σ i` of the second for the
swap `σ` of indices 1 and 2), yet in a `1 × 1` container the two solves
return different multisets of rect shapes: several candidate layouts tie at
covered area `6/7` and enumeration order picks a vertical-first winner for
one input ordering and a transposed one for the other. -/
theorem computeOptimalLayout_shapes_counterexample :
    [(1:ℚ), 1/2, 2].Perm [(1:ℚ), 2, 1/2] ∧
    (∀ i < 3, [(1:ℚ), 1/2, 2].getD i 0 =
      [(1:ℚ), 2, 1/2].getD (if i = 1 then 2 else if i = 2 then 1 else i) 0) ∧
    shapesMultiset (computeOptimalLayout [(1:ℚ), 1/2, 2] 1 1).rects ≠
      shapesMultiset (computeOptimalLayout [(1:ℚ), 2, 1/2] 1 1).rects := by
  refine ⟨List.Perm.cons 1 (List.Perm.swap 2 (1/2) []), ?_, ?_⟩
  · intro i hi
    interval_cases i <;> norm_num [List.getD]
  · have hA : computeOptimalLayout [(1:ℚ), 2, 1/2] 1 1 =
        ⟨[⟨0, 0, 1/14, 4/7, 4/7⟩, ⟨1, 0, 9/14, 4/7, 2/7⟩,
          ⟨2, 4/7, 1/14, 3/7, 6/7⟩], 1⟩ := by
      norm_num [computeOptimalLayout, generatePermutations, genPermsGo, withIdx,
        buildTrees, buildTreesGo, natRange, buildLeaf, List.take, List.drop,
        buildSplit, LayoutNode.ratio, layoutTree, areaSum, pickBest, pickBestStep,
        reduceMin, List.insertionSort, List.orderedInsert, jsOr, fallbackIndex]
    have hB : computeOptimalLayout [(1:ℚ), 1/2, 2] 1 1 =
        ⟨[⟨0, 0, 0, 4/7, 4/7⟩, ⟨1, 4/7, 0, 2/7, 4/7⟩,
          ⟨2, 0, 4/7, 6/7, 3/7⟩], 1⟩ := by
      norm_num [computeOptimalLayout, generatePermutations, genPermsGo, withIdx,
        buildTrees, buildTreesGo, natRange, buildLeaf, List.take, List.drop,
        buildSplit, LayoutNode.ratio, layoutTree, areaSum, pickBest, pickBestStep,
        reduceMin, List.insertionSort, List.orderedInsert, jsOr, fallbackIndex]
    rw [hA, hB]
    intro h
    unfold shapesMultiset at h
    rw [Multiset.coe_eq_coe] at h
    have hmem : ((2:ℚ)/7, (4:ℚ)/7) ∈
        ([⟨0, 0, 0, 4/7, 4/7⟩, ⟨1, 4/7, 0, 2/7, 4/7⟩,
          ⟨2, 0, 4/7, 6/7, 3/7⟩] : List LayoutRect).map
          (fun r => (r.width, r.height)) := by
      simp only [List.map_cons, List.map_nil, List.mem_cons]
      norm_num
    have hmem2 := h.mem_iff.mp hmem
    simp only [List.map_cons, List.map_nil, List.mem_cons, List.not_mem_nil,
      or_false, Prod.mk.injEq] at hmem2
    rcases hmem2 with ⟨h1, _⟩ | ⟨h1, _⟩ | ⟨h1, _⟩ <;> norm_num at h1

/-- Witness for the amended claim C5 at the counterexample input: the two
solves above agree on total covered area and rect count. -/
theorem computeOptimalLayout_perm_area_witness :
    areaSum (computeOptimalLayout [(1:ℚ), 1/2, 2] 1 1).rects =
      areaSum (computeOptimalLayout [(1:ℚ), 2, 1/2] 1 1).rects ∧
    (computeOptimalLayout [(1:ℚ), 1/2, 2] 1 1).rects.length =
      (computeOptimalLayout [(1:ℚ), 2, 1/2] 1 1).rects.length :=
  computeOptimalLayout_perm_area [(1:ℚ), 2, 1/2] [(1:ℚ), 1/2, 2] 1 1
    (fun i => if i = 1 then 2 else if i = 2 then 1 else i)
    (by norm_num)
    (by decide)
    (by
      intro i j hi hj
      simp only [List.length_cons, List.length_nil] at hi hj
      interval_cases i <;> interval_cases j <;> decide)
    (by
      intro i hi
      simp only [List.length_cons, List.length_nil] at hi
      interval_cases i <;> norm_num [List.getD])

/-- Witness for claim C1 at a single photo of aspect ratio 2 in a
`1000 × 600` container. -/
theorem computeOptimalLayout_count_and_area_witness :
    (1 ≤ [(2:ℚ)].length ∧ [(2:ℚ)].length ≤ 4 ∧ (0:ℚ) < 1000 ∧ (0:ℚ) < 600) ∧
    ((computeOptimalLayout [(2:ℚ)] 1000 600).rects.length = [(2:ℚ)].length ∧
     ((computeOptimalLayout [(2:ℚ)] 1000 600).rects.map LayoutRect.index).Perm
       (List.range [(2:ℚ)].length) ∧
     areaSum (computeOptimalLayout [(2:ℚ)] 1000 600).rects ≤ 1000 * 600) :=
  ⟨⟨by norm_num, by norm_num, by norm_num, by norm_num⟩,
    computeOptimalLayout_count_and_area [(2:ℚ)] 1000 600
      (by norm_num) (by norm_num) (by norm_num) (by norm_num)⟩

/-- Witness for claim C8: a ratio-2 photo in a `1000 × 600` container. -/
theorem computeOptimalLayout_single_witness :
    ((0:ℚ) < 2 ∧ (0:ℚ) < 1000) ∧
    ((computeOptimalLayout [(2:ℚ)] 1000 600).rects =
       [⟨0, 0, 0, min (max (600 * 2) (1000 * (1/4))) 1000, 600⟩] ∧
     (computeOptimalLayout [(2:ℚ)] 1000 600).usedWidth =
       min (max (600 * 2) (1000 * (1/4))) 1000 ∧
     1000 * (1/4) ≤ min (max ((600:ℚ) * 2) (1000 * (1/4))) 1000 ∧
     min (max ((600:ℚ) * 2) (1000 * (1/4))) 1000 ≤ 1000) :=
  ⟨⟨by norm_num, by norm_num⟩,
    computeOptimalLayout_single 2 1000 600 (by norm_num) (by norm_num)⟩

/-- Witness for claim C9 at the degenerate input `[0, -1]`: the solver still
returns two rects, and the first tree built for the identity ordering is
well-formed with floored, strictly positive ratios, so `layoutTree` agrees
with the fallback-free layout on it. -/
theorem computeOptimalLayout_total_no_fallback_witness :
    (computeOptimalLayout [(0:ℚ), -1] 1000 600).rects.length = 2 ∧
    wfTree (buildSplit true (buildLeaf 0 0) (buildLeaf 1 (-1))) ∧
    treeAllPos (buildSplit true (buildLeaf 0 0) (buildLeaf 1 (-1))) ∧
    layoutTree (buildSplit true (buildLeaf 0 0) (buildLeaf 1 (-1)))
        ⟨0, 0, 1000, 600⟩ =
      layoutTreeNoFallback (buildSplit true (buildLeaf 0 0) (buildLeaf 1 (-1)))
        ⟨0, 0, 1000, 600⟩ := by
  have h := computeOptimalLayout_total_no_fallback [(0:ℚ), -1] 1000 600
  have hp : [0, 1] ∈ generatePermutations (List.range ([(0:ℚ), -1].length)) := by
    have : List.range ([(0:ℚ), -1].length) = [0, 1] := rfl
    rw [this]
    simp [generatePermutations, genPermsGo, withIdx, List.take, List.drop]
  have htrees : buildTrees [0, 1] [(0:ℚ), -1] =
      [buildSplit true (buildLeaf 0 0) (buildLeaf 1 (-1)),
       buildSplit false (buildLeaf 0 0) (buildLeaf 1 (-1))] := by
    norm_num [buildTrees, buildTreesGo, natRange, List.take, List.drop, List.getD]
  have ht : buildSplit true (buildLeaf 0 0) (buildLeaf 1 (-1)) ∈
      buildTrees [0, 1] [(0:ℚ), -1] := by
    rw [htrees]
    simp
  obtain ⟨hwf, hpos, heq⟩ := h.2 [0, 1] hp _ ht
  exact ⟨h.1, hwf, hpos, heq _⟩

/-! ## Reset-layout versus initial solve-and-normalize (claim C6) -/

theorem computeOptimalLayout_usedWidth_pos (as : List ℚ) (W H : ℚ)
    (hW : 0 < W) (hne : as ≠ []) :
    0 < (computeOptimalLayout as W H).usedWidth := by
  by_cases h0 : as.length = 0
  · exact absurd (List.length_eq_zero.mp h0) hne
  by_cases h1 : as.length = 1
  · rw [computeOptimalLayout, if_neg h0, if_pos h1]
    simp only
    refine lt_min hW ?_
    refine lt_of_lt_of_le ?_ (le_max_right _ _)
    linarith
  · rw [computeOptimalLayout, if_neg h0, if_neg h1]
    simp only
    refine lt_min (lt_of_lt_of_le one_pos (le_max_right _ _)) hW

/-- Claim C6: for a non-empty frame set, `handleResetLayout` produces
exactly the effective width and normalized rect list that the initial
solve-and-normalize pipeline produces for the same aspect ratios (for any
positive photo-area width and any value of the initial pipeline's
`DEFAULT_PHOTO_WIDTH` fallback, which is dead code because the solver's
`usedWidth` is always positive here). -/
theorem resetLayout_matches_initial (maxPhotoWidth canvasHeight
    defaultPhotoWidth : ℚ) (aspects : List ℚ) (hW : 0 < maxPhotoWidth)
    (hne : aspects ≠ []) :
    resetLayoutPipeline maxPhotoWidth canvasHeight aspects =
      initialLayoutPipeline maxPhotoWidth canvasHeight defaultPhotoWidth aspects := by
  unfold resetLayoutPipeline initialLayoutPipeline
  simp only
  rw [if_pos (computeOptimalLayout_usedWidth_pos aspects maxPhotoWidth
    canvasHeight hW hne)]

/-- Witness for claim C6: two photos (ratios 2 and 1/2) against a
`960 × 600` photo area, with `DEFAULT_PHOTO_WIDTH = 640`. -/
theorem resetLayout_matches_initial_witness :
    ((0:ℚ) < 960 ∧ ([(2:ℚ), 1/2] : List ℚ) ≠ []) ∧
    resetLayoutPipeline 960 600 [(2:ℚ), 1/2] =
      initialLayoutPipeline 960 600 640 [(2:ℚ), 1/2] :=
  ⟨⟨by norm_num, by simp⟩,
    resetLayout_matches_initial 960 600 640 [(2:ℚ), 1/2] (by norm_num) (by simp)⟩

/-! ## Typography fitter: line-count bound -/

theorem jsTruncLines_length_le {ml : ℚ} (hml : 0 ≤ ml) (l : List String) :
    ((jsTruncLines ml l).length : ℚ) ≤ ml := by
  unfold jsTruncLines
  calc ((l.take (Int.toNat ⌊ml⌋)).length : ℚ) ≤ (Int.toNat ⌊ml⌋ : ℚ) := by
        exact_mod_cast List.length_take_le _ _
    _ = ((⌊ml⌋ : ℤ) : ℚ) := by
        exact_mod_cast Int.toNat_of_nonneg (Int.floor_nonneg.mpr hml)
    _ ≤ ml := Int.floor_le ml

theorem wrapPara_inl_length {m : String → ℚ} {mw ml : ℚ} {lines : List String}
    {para : String} {isLast : Bool} {res : List String}
    (hpre : (lines.length : ℚ) < ml)
    (h : wrapPara m mw ml lines para isLast = .inl res) :
    (res.length : ℚ) ≤ ml := by
  have hml0 : 0 ≤ ml := le_trans (by positivity) hpre.le
  simp only [wrapPara] at h
  by_cases hp : jsTrim para = ""
  · rw [if_pos hp] at h
    by_cases hle : ml ≤ (((if (lines.length : ℚ) < ml then lines ++ [""] else lines).length : ℚ))
    · rw [if_pos hle] at h
      obtain rfl := (Sum.inl.injEq _ _).mp h
      exact jsTruncLines_length_le hml0 _
    · rw [if_neg hle] at h
      exact absurd h (by simp)
  · rw [if_neg hp] at h
    set st := (jsSplitWs (jsTrim para)).foldl (wrapStep m mw ml) (lines, "") with hst
    set lines1 := if st.2 ≠ "" ∧ (st.1.length : ℚ) < ml then st.1 ++ [st.2] else st.1
      with hl1
    set lines2 := if ¬isLast = true ∧ (lines1.length : ℚ) < ml then lines1 ++ [""]
      else lines1 with hl2
    by_cases hle : ml ≤ (lines2.length : ℚ)
    · rw [if_pos hle] at h
      obtain rfl := (Sum.inl.injEq _ _).mp h
      exact jsTruncLines_length_le hml0 _
    · rw [if_neg hle] at h
      exact absurd h (by simp)

theorem wrapPara_inr_length {m : String → ℚ} {mw ml : ℚ} {lines : List String}
    {para : String} {isLast : Bool} {l2 : List String}
    (h : wrapPara m mw ml lines para isLast = .inr l2) :
    (l2.length : ℚ) < ml := by
  simp only [wrapPara] at h
  by_cases hp : jsTrim para = ""
  · rw [if_pos hp] at h
    by_cases hle : ml ≤ (((if (lines.length : ℚ) < ml then lines ++ [""] else lines).length : ℚ))
    · rw [if_pos hle] at h
      exact absurd h (by simp)
    · rw [if_neg hle] at h
      obtain rfl := (Sum.inr.injEq _ _).mp h
      exact not_le.mp hle
  · rw [if_neg hp] at h
    set st := (jsSplitWs (jsTrim para)).foldl (wrapStep m mw ml) (lines, "") with hst
    set lines1 := if st.2 ≠ "" ∧ (st.1.length : ℚ) < ml then st.1 ++ [st.2] else st.1
      with hl1
    set lines2 := if ¬isLast = true ∧ (lines1.length : ℚ) < ml then lines1 ++ [""]
      else lines1 with hl2
    by_cases hle : ml ≤ (lines2.length : ℚ)
    · rw [if_pos hle] at h
      exact absurd h (by simp)
    · rw [if_neg hle] at h
      obtain rfl := (Sum.inr.injEq _ _).mp h
      exact not_le.mp hle

theorem wrapParas_length {m : String → ℚ} {mw ml : ℚ} :
    ∀ (ps : List String) (lines : List String), (lines.length : ℚ) < ml →
    ((wrapParas m mw ml ps lines).length : ℚ) ≤ ml := by
  intro ps
  induction ps with
  | nil => intro lines h; exact h.le
  | cons p ps ih =>
    intro lines h
    rw [wrapParas]
    rcases hpara : wrapPara m mw ml lines p ps.isEmpty with res | l2
    · exact wrapPara_inl_length h hpara
    · exact ih l2 (wrapPara_inr_length hpara)

theorem wrapText_length {m : String → ℚ} {text : String} {mw ml : ℚ}
    (hml : 1 ≤ ml) : ((wrapText m text mw ml).length : ℚ) ≤ ml := by
  unfold wrapText
  refine wrapParas_length _ [] ?_
  simp only [List.length_nil, Nat.cast_zero]
  linarith

/-! ## Typography fitter: non-empty output -/

theorem splitLinesAux_ne_nil : ∀ (l acc : List Char), splitLinesAux l acc ≠ [] := by
  intro l
  induction l with
  | nil => intro acc; simp [splitLinesAux]
  | cons c cs ih =>
    intro acc
    rw [splitLinesAux]
    by_cases hc : c = '\n'
    · rw [if_pos hc]
      simp
    · rw [if_neg hc]
      exact ih (c :: acc)

theorem jsSplitLines_ne_nil (s : String) : jsSplitLines s ≠ [] :=
  splitLinesAux_ne_nil s.toList []

theorem mk_ne_empty {l : List Char} (h : l ≠ []) : String.mk l ≠ "" := by
  intro he
  exact h (congrArg String.data he)

theorem splitWsAux_eq_nil : ∀ (l cur : List Char), splitWsAux l cur = [] →
    cur = [] ∧ ∀ c ∈ l, wsChar c = true := by
  intro l
  induction l with
  | nil =>
    intro cur h
    rw [splitWsAux] at h
    by_cases hc : cur.isEmpty
    · exact ⟨List.isEmpty_iff.mp hc, by simp⟩
    · rw [if_neg hc] at h
      simp at h
  | cons c cs ih =>
    intro cur h
    rw [splitWsAux] at h
    by_cases hw : wsChar c
    · rw [if_pos hw] at h
      by_cases hc : cur.isEmpty
      · rw [if_pos hc] at h
        obtain ⟨_, hall⟩ := ih [] h
        refine ⟨List.isEmpty_iff.mp hc, ?_⟩
        intro d hd
        rcases List.mem_cons.mp hd with rfl | hd
        · exact hw
        · exact hall d hd
      · rw [if_neg hc] at h
        simp at h
    · rw [if_neg hw] at h
      obtain ⟨hcc, _⟩ := ih (c :: cur) h
      simp at hcc

theorem splitWsAux_mem_ne : ∀ (l cur : List Char), ∀ w ∈ splitWsAux l cur,
    w ≠ "" := by
  intro l
  induction l with
  | nil =>
    intro cur w hw
    rw [splitWsAux] at hw
    by_cases hc : cur.isEmpty
    · rw [if_pos hc] at hw
      simp at hw
    · rw [if_neg hc] at hw
      rw [List.mem_singleton] at hw
      subst hw
      refine mk_ne_empty ?_
      intro he
      rw [List.reverse_eq_nil_iff] at he
      rw [he] at hc
      exact hc rfl
  | cons c cs ih =>
    intro cur w hw
    rw [splitWsAux] at hw
    by_cases hws : wsChar c
    · rw [if_pos hws] at hw
      by_cases hc : cur.isEmpty
      · rw [if_pos hc] at hw
        exact ih [] w hw
      · rw [if_neg hc] at hw
        rcases List.mem_cons.mp hw with rfl | hw2
        · refine mk_ne_empty ?_
          intro he
          rw [List.reverse_eq_nil_iff] at he
          rw [he] at hc
          exact hc rfl
        · exact ih [] w hw2
    · rw [if_neg hws] at hw
      exact ih (c :: cur) w hw

theorem jsTrim_exists_not_ws (s : String) (h : jsTrim s ≠ "") :
    ∃ c ∈ (jsTrim s).toList, ¬ wsChar c = true := by
  have htl : (jsTrim s).toList =
      ((s.toList.dropWhile wsChar).reverse.dropWhile wsChar).reverse := rfl
  have hne : (jsTrim s).toList ≠ [] := by
    intro he
    refine h (String.ext ?_)
    exact he
  have hpre : (jsTrim s).toList <+: (s.toList.dropWhile wsChar) := by
    rw [htl]
    rw [← List.reverse_suffix]
    simp only [List.reverse_reverse]
    exact List.dropWhile_suffix wsChar
  have hl0ne : s.toList.dropWhile wsChar ≠ [] := by
    intro he
    rw [he] at hpre
    exact hne (List.prefix_nil.mp hpre)
  refine ⟨(jsTrim s).toList.head hne, List.head_mem hne, ?_⟩
  rw [hpre.head hne]
  rw [Bool.not_eq_true]
  exact List.head_dropWhile_not wsChar s.toList hl0ne

theorem jsSplitWs_trim_ne_nil {para : String} (hp : jsTrim para ≠ "") :
    jsSplitWs (jsTrim para) ≠ [] := by
  intro hnil
  obtain ⟨-, hall⟩ := splitWsAux_eq_nil _ _ hnil
  obtain ⟨c, hc, hnw⟩ := jsTrim_exists_not_ws para hp
  exact hnw (hall c hc)

theorem wrapStep_snd_ne {m : String → ℚ} {mw ml : ℚ}
    (st : List String × String) {w : String} (hw : w ≠ "") :
    (wrapStep m mw ml st w).2 ≠ "" := by
  unfold wrapStep
  by_cases h1 : mw < m (if st.2 = "" then w else st.2 ++ " " ++ w) ∧ st.2 ≠ ""
  · rw [if_pos h1]
    exact hw
  · rw [if_neg h1]
    by_cases h2 : st.2 = ""
    · rw [if_pos h2]
      exact hw
    · rw [if_neg h2]
      intro he
      have := congrArg String.data he
      rw [String.data_append, String.data_append] at this
      simp at this

theorem foldl_wrapStep_snd_ne {m : String → ℚ} {mw ml : ℚ} :
    ∀ (ws : List String) (st : List String × String),
    (∀ w ∈ ws, w ≠ "") → (st.2 ≠ "" ∨ ws ≠ []) →
    (ws.foldl (wrapStep m mw ml) st).2 ≠ "" := by
  intro ws
  induction ws with
  | nil =>
    intro st _ hd
    rcases hd with hd | hd
    · exact hd
    · exact absurd rfl hd
  | cons w ws ih =>
    intro st hall _
    rw [List.foldl_cons]
    refine ih _ (fun v hv => hall v (by simp [hv])) (Or.inl ?_)
    exact wrapStep_snd_ne st (hall w (by simp))

theorem toNat_floor_pos {ml : ℚ} (hml : 1 ≤ ml) : 0 < Int.toNat ⌊ml⌋ := by
  have h1 : (1 : ℤ) ≤ ⌊ml⌋ := by
    rw [Int.le_floor]
    exact_mod_cast hml
  omega

theorem wrapPara_inl_ne_nil {m : String → ℚ} {mw ml : ℚ} {lines : List String}
    {para : String} {isLast : Bool} {res : List String} (hml : 1 ≤ ml)
    (h : wrapPara m mw ml lines para isLast = .inl res) : res ≠ [] := by
  have hml0 : (0 : ℚ) < ml := by linarith
  simp only [wrapPara] at h
  by_cases hp : jsTrim para = ""
  · rw [if_pos hp] at h
    set lines1 := if (lines.length : ℚ) < ml then lines ++ [""] else lines with hl1
    have hl1ne : lines1 ≠ [] := by
      rw [hl1]
      by_cases hc : (lines.length : ℚ) < ml
      · rw [if_pos hc]
        simp
      · rw [if_neg hc]
        intro he
        rw [he] at hc
        simp only [List.length_nil, Nat.cast_zero] at hc
        exact hc hml0
    by_cases hle : ml ≤ (lines1.length : ℚ)
    · rw [if_pos hle] at h
      obtain rfl := (Sum.inl.injEq _ _).mp h
      unfold jsTruncLines
      rw [Ne, List.take_eq_nil_iff]
      push_neg
      exact ⟨Nat.pos_iff_ne_zero.mp (toNat_floor_pos hml), hl1ne⟩
    · rw [if_neg hle] at h
      exact absurd h (by simp)
  · rw [if_neg hp] at h
    set st := (jsSplitWs (jsTrim para)).foldl (wrapStep m mw ml) (lines, "") with hst
    have hsnd : st.2 ≠ "" := by
      rw [hst]
      refine foldl_wrapStep_snd_ne _ _ (splitWsAux_mem_ne _ _) (Or.inr ?_)
      exact jsSplitWs_trim_ne_nil hp
    set lines1 := if st.2 ≠ "" ∧ (st.1.length : ℚ) < ml then st.1 ++ [st.2] else st.1
      with hl1
    have hl1ne : lines1 ≠ [] := by
      rw [hl1]
      by_cases hc : st.2 ≠ "" ∧ (st.1.length : ℚ) < ml
      · rw [if_pos hc]
        simp
      · rw [if_neg hc]
        push_neg at hc
        have hge := hc hsnd
        intro he
        rw [he] at hge
        simp only [List.length_nil, Nat.cast_zero] at hge
        linarith
    set lines2 := if ¬isLast = true ∧ (lines1.length : ℚ) < ml then lines1 ++ [""]
      else lines1 with hl2
    have hl2ne : lines2 ≠ [] := by
      rw [hl2]
      by_cases hc : ¬isLast = true ∧ (lines1.length : ℚ) < ml
      · rw [if_pos hc]
        simp
      · rw [if_neg hc]
        exact hl1ne
    by_cases hle : ml ≤ (lines2.length : ℚ)
    · rw [if_pos hle] at h
      obtain rfl := (Sum.inl.injEq _ _).mp h
      unfold jsTruncLines
      rw [Ne, List.take_eq_nil_iff]
      push_neg
      exact ⟨Nat.pos_iff_ne_zero.mp (toNat_floor_pos hml), hl2ne⟩
    · rw [if_neg hle] at h
      exact absurd h (by simp)

theorem wrapPara_inr_ne_nil {m : String → ℚ} {mw ml : ℚ} {lines : List String}
    {para : String} {isLast : Bool} {l2 : List String} (hml : 1 ≤ ml)
    (h : wrapPara m mw ml lines para isLast = .inr l2) : l2 ≠ [] := by
  have hml0 : (0 : ℚ) < ml := by linarith
  simp only [wrapPara] at h
  by_cases hp : jsTrim para = ""
  · rw [if_pos hp] at h
    set lines1 := if (lines.length : ℚ) < ml then lines ++ [""] else lines with hl1
    have hl1ne : lines1 ≠ [] := by
      rw [hl1]
      by_cases hc : (lines.length : ℚ) < ml
      · rw [if_pos hc]
        simp
      · rw [if_neg hc]
        intro he
        rw [he] at hc
        simp only [List.length_nil, Nat.cast_zero] at hc
        exact hc hml0
    by_cases hle : ml ≤ (lines1.length : ℚ)
    · rw [if_pos hle] at h
      exact absurd h (by simp)
    · rw [if_neg hle] at h
      obtain rfl := (Sum.inr.injEq _ _).mp h
      exact hl1ne
  · rw [if_neg hp] at h
    set st := (jsSplitWs (jsTrim para)).foldl (wrapStep m mw ml) (lines, "") with hst
    have hsnd : st.2 ≠ "" := by
      rw [hst]
      refine foldl_wrapStep_snd_ne _ _ (splitWsAux_mem_ne _ _) (Or.inr ?_)
      exact jsSplitWs_trim_ne_nil hp
    set lines1 := if st.2 ≠ "" ∧ (st.1.length : ℚ) < ml then st.1 ++ [st.2] else st.1
      with hl1
    have hl1ne : lines1 ≠ [] := by
      rw [hl1]
      by_cases hc : st.2 ≠ "" ∧ (st.1.length : ℚ) < ml
      · rw [if_pos hc]
        simp
      · rw [if_neg hc]
        push_neg at hc
        have hge := hc hsnd
        intro he
        rw [he] at hge
        simp only [List.length_nil, Nat.cast_zero] at hge
        linarith
    set lines2 := if ¬isLast = true ∧ (lines1.length : ℚ) < ml then lines1 ++ [""]
      else lines1 with hl2
    have hl2ne : lines2 ≠ [] := by
      rw [hl2]
      by_cases hc : ¬isLast = true ∧ (lines1.length : ℚ) < ml
      · rw [if_pos hc]
        simp
      · rw [if_neg hc]
        exact hl1ne
    by_cases hle : ml ≤ (lines2.length : ℚ)
    · rw [if_pos hle] at h
      exact absurd h (by simp)
    · rw [if_neg hle] at h
      obtain rfl := (Sum.inr.injEq _ _).mp h
      exact hl2ne

theorem wrapParas_ne_nil {m : String → ℚ} {mw ml : ℚ} (hml : 1 ≤ ml) :
    ∀ (ps lines : List String), ps ≠ [] ∨ lines ≠ [] →
    wrapParas m mw ml ps lines ≠ [] := by
  intro ps
  induction ps with
  | nil =>
    intro lines hd
    rcases hd with hd | hd
    · exact absurd rfl hd
    · exact hd
  | cons p ps ih =>
    intro lines _
    rw [wrapParas]
    rcases hpara : wrapPara m mw ml lines p ps.isEmpty with res | l2
    · exact wrapPara_inl_ne_nil hml hpara
    · exact ih l2 (Or.inr (wrapPara_inr_ne_nil hml hpara))

theorem wrapText_ne_nil {m : String → ℚ} {text : String} {mw ml : ℚ}
    (hml : 1 ≤ ml) : wrapText m text mw ml ≠ [] := by
  unfold wrapText
  exact wrapParas_ne_nil hml _ [] (Or.inl (jsSplitLines_ne_nil text))

/-! ## Typography fitter: font-size search -/

theorem fontSizeCandidates_mem {maxF minF s : ℚ}
    (hs : s ∈ fontSizeCandidates maxF minF) : minF ≤ s ∧ s ≤ maxF := by
  unfold fontSizeCandidates at hs
  by_cases hlt : maxF < minF
  · rw [if_pos hlt] at hs
    simp at hs
  · rw [if_neg hlt] at hs
    rw [List.mem_map] at hs
    obtain ⟨k, hk, rfl⟩ := hs
    rw [List.mem_range] at hk
    have hk2 : (k : ℚ) ≤ maxF - minF := by
      have h1 : k ≤ Int.toNat ⌊maxF - minF⌋ := by omega
      have h2 : ((Int.toNat ⌊maxF - minF⌋ : ℤ) : ℚ) = ((⌊maxF - minF⌋ : ℤ) : ℚ) := by
        exact_mod_cast Int.toNat_of_nonneg (Int.floor_nonneg.mpr (by linarith))
      calc (k : ℚ) ≤ ((Int.toNat ⌊maxF - minF⌋ : ℕ) : ℚ) := by exact_mod_cast h1
        _ = ((⌊maxF - minF⌋ : ℤ) : ℚ) := by exact_mod_cast h2
        _ ≤ maxF - minF := Int.floor_le _
    have hk0 : (0 : ℚ) ≤ (k : ℚ) := by positivity
    constructor
    · linarith
    · linarith

theorem fitTextBlock_cases (measure : String → String → ℚ) (rawText : String)
    (options : TextFitOptions) :
    (∃ size, size ∈ fontSizeCandidates options.maxFontSize options.minFontSize ∧
      ((fitLines measure options
          (if 0 < (jsTrim rawText).length then jsTrim rawText else " ")
          size).length : ℚ) * (size * options.lineHeightMultiplier) ≤
        options.maxHeight ∧
      fitTextBlock measure rawText options =
        ⟨size, size * options.lineHeightMultiplier,
         fitLines measure options
           (if 0 < (jsTrim rawText).length then jsTrim rawText else " ") size⟩) ∨
    ((∀ size ∈ fontSizeCandidates options.maxFontSize options.minFontSize,
        ¬ (((fitLines measure options
            (if 0 < (jsTrim rawText).length then jsTrim rawText else " ")
            size).length : ℚ) * (size * options.lineHeightMultiplier) ≤
          options.maxHeight)) ∧
      fitTextBlock measure rawText options =
        ⟨options.minFontSize,
         options.minFontSize * options.lineHeightMultiplier,
         if (fitLines measure options
             (if 0 < (jsTrim rawText).length then jsTrim rawText else " ")
             options.minFontSize).length > 0 then
           fitLines measure options
             (if 0 < (jsTrim rawText).length then jsTrim rawText else " ")
             options.minFontSize
         else [""]⟩) := by
  set w := if 0 < (jsTrim rawText).length then jsTrim rawText else " " with hw
  simp only [fitTextBlock]
  rw [← hw]
  split
  · rename_i size heq
    refine Or.inl ⟨size, List.mem_of_find?_eq_some heq, ?_, rfl⟩
    have := List.find?_some heq
    exact of_decide_eq_true this
  · rename_i heq
    refine Or.inr ⟨?_, rfl⟩
    intro size hsize hfit
    have := List.find?_eq_none.mp heq size hsize
    exact this (decide_eq_true hfit)

/-- Amended claim C3: for every text and measurement capability, and every
options record whose font range is non-empty (`minFontSize ≤ maxFontSize`)
and whose line cap admits at least one line (`1 ≤ maxLines`),
`fitTextBlock` returns at most `maxLines` lines and a font size inside
`[minFontSize, maxFontSize]`.  Without those two well-formedness
hypotheses the claim fails on the code — see the counterexample. -/
theorem fitTextBlock_bounds (measure : String → String → ℚ) (rawText : String)
    (options : TextFitOptions) (hml : 1 ≤ options.maxLines)
    (hfs : options.minFontSize ≤ options.maxFontSize) :
    ((fitTextBlock measure rawText options).lines.length : ℚ) ≤
      options.maxLines ∧
    options.minFontSize ≤ (fitTextBlock measure rawText options).fontSize ∧
    (fitTextBlock measure rawText options).fontSize ≤ options.maxFontSize := by
  rcases fitTextBlock_cases measure rawText options with
    ⟨size, hmem, _, heq⟩ | ⟨_, heq⟩
  · rw [heq]
    obtain ⟨h1, h2⟩ := fontSizeCandidates_mem hmem
    exact ⟨wrapText_length hml, h1, h2⟩
  · rw [heq]
    refine ⟨?_, le_refl _, hfs⟩
    by_cases hne : (fitLines measure options
        (if 0 < (jsTrim rawText).length then jsTrim rawText else " ")
        options.minFontSize).length > 0
    · rw [if_pos hne]
      exact wrapText_length hml
    · rw [if_neg hne]
      simp only [List.length_singleton, Nat.cast_one]
      exact hml

/-- Claim C7: whenever no font size in `[minFontSize, maxFontSize]` makes
the wrapped block height fit within `maxHeight` (and at least one line is
admitted), `fitTextBlock` signals no error: it returns exactly
`minFontSize` together with the lines wrapped at `minFontSize`, silently
accepting the overflow. -/
theorem fitTextBlock_fallback (measure : String → String → ℚ)
    (rawText : String) (options : TextFitOptions) (hml : 1 ≤ options.maxLines)
    (hnofit : ∀ size : ℚ, options.minFontSize ≤ size →
      size ≤ options.maxFontSize →
      options.maxHeight <
        ((fitLines measure options
          (if 0 < (jsTrim rawText).length then jsTrim rawText else " ")
          size).length : ℚ) * (size * options.lineHeightMultiplier)) :
    fitTextBlock measure rawText options =
      ⟨options.minFontSize, options.minFontSize * options.lineHeightMultiplier,
       fitLines measure options
         (if 0 < (jsTrim rawText).length then jsTrim rawText else " ")
         options.minFontSize⟩ := by
  rcases fitTextBlock_cases measure rawText options with
    ⟨size, hmem, hfit, _⟩ | ⟨_, heq⟩
  · obtain ⟨h1, h2⟩ := fontSizeCandidates_mem hmem
    exact absurd hfit (not_le.mpr (hnofit size h1 h2))
  · rw [heq]
    have hne : fitLines measure options
        (if 0 < (jsTrim rawText).length then jsTrim rawText else " ")
        options.minFontSize ≠ [] := wrapText_ne_nil hml
    rw [if_pos (List.length_pos.mpr hne)]

/-- Claim C10: for every input text (empty and whitespace-only strings
included) and every options record admitting at least one line,
`fitTextBlock` returns at least one line, so a caller never receives an
empty text block. -/
theorem fitTextBlock_lines_ne_nil (measure : String → String → ℚ)
    (rawText : String) (options : TextFitOptions)
    (hml : 1 ≤ options.maxLines) :
    (fitTextBlock measure rawText options).lines ≠ [] := by
  rcases fitTextBlock_cases measure rawText options with
    ⟨size, _, _, heq⟩ | ⟨_, heq⟩
  · rw [heq]
    exact wrapText_ne_nil hml
  · rw [heq]
    by_cases hne : (fitLines measure options
        (if 0 < (jsTrim rawText).length then jsTrim rawText else " ")
        options.minFontSize).length > 0
    · rw [if_pos hne]
      exact wrapText_ne_nil hml
    · rw [if_neg hne]
      simp

/-- Counterexample to claim C3 as stated: with an empty font range
(`maxFontSize = 1 < 2 = minFontSize`) the silent fallback returns
`fontSize = minFontSize`, above `maxFontSize`; and with `maxLines = 0`
the fallback substitutes `[""]`, one line more than the cap. -/
theorem fitTextBlock_bounds_counterexample :
    ¬ ((fitTextBlock (fun _ _ => (0 : ℚ)) "a"
          ⟨100, 50, 3, 1, 2, "bold", 1⟩).fontSize ≤
        (⟨100, 50, 3, 1, 2, "bold", 1⟩ : TextFitOptions).maxFontSize) ∧
    ¬ (((fitTextBlock (fun _ _ => (0 : ℚ)) "a"
          ⟨100, -1, 0, 1, 1, "w", 1⟩).lines.length : ℚ) ≤
        (⟨100, -1, 0, 1, 1, "w", 1⟩ : TextFitOptions).maxLines) := by
  constructor
  · decide
  · have hl : fitLines (fun _ _ => (0 : ℚ)) ⟨100, -1, 0, 1, 1, "w", 1⟩
        (if 0 < (jsTrim "a").length then jsTrim "a" else " ") 1 = [] := by decide
    rcases fitTextBlock_cases (fun _ _ => (0 : ℚ)) "a" ⟨100, -1, 0, 1, 1, "w", 1⟩ with
      ⟨size, hmem, hfit, _⟩ | ⟨_, heq⟩
    · have hc : fontSizeCandidates
          (⟨100, -1, 0, 1, 1, "w", 1⟩ : TextFitOptions).maxFontSize
          (⟨100, -1, 0, 1, 1, "w", 1⟩ : TextFitOptions).minFontSize = [(1 : ℚ)] := by
        norm_num [fontSizeCandidates, List.range_succ, List.range_zero]
      rw [hc] at hmem
      rw [List.mem_singleton] at hmem
      subst hmem
      rw [hl] at hfit
      norm_num at hfit
    · rw [heq]
      have hproj : (⟨100, -1, 0, 1, 1, "w", 1⟩ : TextFitOptions).minFontSize = (1 : ℚ) :=
        rfl
      rw [hproj, hl]
      norm_num

theorem fitTextBlock_bounds_witness :
    ((fitTextBlock (fun _ _ => (0 : ℚ)) "a"
        ⟨100, 50, 3, 2, 1, "bold", 1⟩).lines.length : ℚ) ≤
      (⟨100, 50, 3, 2, 1, "bold", 1⟩ : TextFitOptions).maxLines ∧
    (⟨100, 50, 3, 2, 1, "bold", 1⟩ : TextFitOptions).minFontSize ≤
      (fitTextBlock (fun _ _ => (0 : ℚ)) "a"
        ⟨100, 50, 3, 2, 1, "bold", 1⟩).fontSize ∧
    (fitTextBlock (fun _ _ => (0 : ℚ)) "a"
        ⟨100, 50, 3, 2, 1, "bold", 1⟩).fontSize ≤
      (⟨100, 50, 3, 2, 1, "bold", 1⟩ : TextFitOptions).maxFontSize :=
  fitTextBlock_bounds (fun _ _ => (0 : ℚ)) "a" ⟨100, 50, 3, 2, 1, "bold", 1⟩
    (by norm_num) (by norm_num)

theorem fitTextBlock_fallback_witness :
    fitTextBlock (fun _ _ => (0 : ℚ)) "a" ⟨100, 1/2, 3, 3, 2, "w", 1⟩ =
      ⟨2, 2 * 1, ["a"]⟩ := by
  have h := fitTextBlock_fallback (fun _ _ => (0 : ℚ)) "a" ⟨100, 1/2, 3, 3, 2, "w", 1⟩
    (by norm_num)
    (by
      intro size h2 h3
      have he : fitLines (fun _ _ => (0 : ℚ)) ⟨100, 1/2, 3, 3, 2, "w", 1⟩
          (if 0 < (jsTrim "a").length then jsTrim "a" else " ") size = ["a"] := rfl
      rw [he]
      simp
      linarith)
  exact h.trans rfl

theorem fitTextBlock_lines_ne_nil_witness :
    (fitTextBlock (fun _ _ => (0 : ℚ)) "" ⟨100, 50, 3, 2, 1, "w", 1⟩).lines ≠ [] :=
  fitTextBlock_lines_ne_nil (fun _ _ => (0 : ℚ)) "" ⟨100, 50, 3, 2, 1, "w", 1⟩
    (by norm_num)

/-! ## Drag snapping: exactness of committed snap targets -/

/-- Counterexample to claim C4 as stated: dragging next to the frame at
`x = 1/3` snaps the candidate `1/3 + 1/100` (within the `0.02` threshold)
to the target `1/3`, but the commit path re-quantizes through
`Number(v.toFixed(6))`, so the stored coordinate is `0.333333`, not the
snap target: the residual is `1/3000000`, not zero. -/
theorem dragStep_snap_exact_counterexample :
    (|((1:ℚ)/3 + 1/100) - 1/3| ≤ SNAP_THRESHOLD ∧
      (1/3 : ℚ) ∈ snapCandidates true [⟨1/3, 0, 1/4, 1/4⟩] (1/2)) ∧
    (dragStep [⟨1/3, 0, 1/4, 1/4⟩] ⟨0, 0, 1/2, 1/2⟩ (1/3 + 1/100) 0).x ≠ 1/3 := by
  refine ⟨⟨by norm_num [SNAP_THRESHOLD, abs_le], by norm_num [snapCandidates]⟩, ?_⟩
  have hlist : snapCandidates true [⟨1/3, 0, 1/4, 1/4⟩] (1/2) =
      [0, 1/2, 1/3, 7/12, -1/6, 1/12] := by
    norm_num [snapCandidates]
  have hx : snapCoordinate (1/3 + 1/100) (1/2) true [⟨1/3, 0, 1/4, 1/4⟩] = 1/3 := by
    unfold snapCoordinate
    rw [hlist]
    norm_num [List.find?, SNAP_THRESHOLD, abs_le]
  have hy : snapCoordinate 0 (1/2) false [⟨1/3, 0, 1/4, 1/4⟩] = 0 := by
    unfold snapCoordinate
    norm_num [snapCandidates, List.find?, SNAP_THRESHOLD, abs_le]
  show (handleFrameUpdate _).x ≠ _
  unfold handleFrameUpdate
  simp only [dragStep, hx, hy]
  norm_num [clampPosition, round6, jsRound]

/-- Amended claim C4: if the x-axis snap search of a drag move finds the
candidate coordinate within the threshold of a snap target `c`, then the
committed x coordinate equals `c` exactly, PROVIDED `c` survives the
subsequent clamp (`0 ≤ c ≤ max 0 (1 - width)`) and is exactly
representable at six decimals (`round6 c = c`).  Without the two provisos
the exact-match claim fails on the code — see the counterexample. -/
theorem dragStep_snap_exact (others : List NormalizedRect) (l : NormalizedRect)
    (candX candY c : ℚ)
    (hfind : (snapCandidates true others l.width).find?
        (fun candidate => |candX - candidate| ≤ SNAP_THRESHOLD) = some c)
    (hc0 : 0 ≤ c) (hc1 : c ≤ max 0 (1 - l.width))
    (hq : round6 c = c) :
    (dragStep others l candX candY).x = c := by
  have hs : snapCoordinate candX l.width true others = c := by
    unfold snapCoordinate
    rw [hfind]
  show round6 (clampPosition (snapCoordinate candX l.width true others) l.width) = c
  rw [hs]
  unfold clampPosition
  rw [max_eq_right hc0, min_eq_right hc1, hq]

theorem dragStep_snap_exact_witness :
    (dragStep [] ⟨0, 0, 1/2, 1/2⟩ (1/100) 0).x = 0 := by
  refine dragStep_snap_exact [] ⟨0, 0, 1/2, 1/2⟩ (1/100) 0 0 ?_ le_rfl ?_ ?_
  · norm_num [snapCandidates, List.find?, SNAP_THRESHOLD, abs_le]
  · norm_num
  · norm_num [round6, jsRound]

/-! ## Manipulation invariant: the canvas-bounds claim -/

theorem clampPosition_nonneg (value size : ℚ) : 0 ≤ clampPosition value size :=
  le_min (le_max_left 0 _) (le_max_left 0 _)

theorem clampPosition_le (value size : ℚ) :
    clampPosition value size ≤ max 0 (1 - size) :=
  min_le_left _ _

theorem round6_le_one_eps {q : ℚ} (h : q ≤ 1 + 1/1000000) :
    round6 q ≤ 1 + 1/1000000 := by
  have hk : q ≤ ((1000001 : ℤ) : ℚ) / 1000000 := by push_cast; linarith
  have := round6_le_intCast hk
  push_cast at this
  linarith

theorem normalizedHeightFromWidth_nonneg (w a c : ℚ) :
    0 ≤ normalizedHeightFromWidth w a c := by
  unfold normalizedHeightFromWidth
  split_ifs <;> simp

theorem normalizedHeightFromWidth_le {w a c b : ℚ} (hw : 0 ≤ w) (ha : 0 < a)
    (hc : 0 < c) (hb : 0 ≤ b) (hwb : w * (c / a) ≤ b) :
    normalizedHeightFromWidth w a c ≤ b := by
  unfold normalizedHeightFromWidth
  rw [if_neg (not_lt.mpr hw), if_neg (by push_neg; exact ⟨ha, hc⟩)]
  exact max_le hb ((min_le_right _ _).trans hwb)

theorem frameInside_dragStep (others : List NormalizedRect)
    (l : NormalizedRect) (candX candY : ℚ) (h : frameInside l) :
    frameInside (dragStep others l candX candY) := by
  obtain ⟨hx, hy, hw, hh, hxw, hyh⟩ := h
  simp only [dragStep, handleFrameUpdate, frameInside]
  set nX := clampPosition (snapCoordinate candX l.width true others) l.width with hnX
  set nY := clampPosition (snapCoordinate candY l.height false others) l.height with hnY
  have hnX0 : 0 ≤ nX := clampPosition_nonneg _ _
  have hnY0 : 0 ≤ nY := clampPosition_nonneg _ _
  refine ⟨round6_nonneg hnX0, round6_nonneg hnY0, round6_nonneg hw,
    round6_nonneg hh, ?_, ?_⟩
  · by_cases hw1 : l.width ≤ 1
    · have h2 : nX ≤ 1 - l.width :=
        (clampPosition_le _ _).trans_eq (max_eq_right (by linarith))
      have h3 := round6_le nX
      have h4 := round6_le l.width
      linarith
    · have h0 : nX = 0 :=
        le_antisymm ((clampPosition_le _ _).trans_eq (max_eq_left (by linarith)))
          hnX0
      rw [h0, round6_zero]
      have h6 := round6_le_one_eps (show l.width ≤ 1 + 1/1000000 by linarith)
      linarith
  · by_cases hh1 : l.height ≤ 1
    · have h2 : nY ≤ 1 - l.height :=
        (clampPosition_le _ _).trans_eq (max_eq_right (by linarith))
      have h3 := round6_le nY
      have h4 := round6_le l.height
      linarith
    · have h0 : nY = 0 :=
        le_antisymm ((clampPosition_le _ _).trans_eq (max_eq_left (by linarith)))
          hnY0
      rw [h0, round6_zero]
      have h6 := round6_le_one_eps (show l.height ≤ 1 + 1/1000000 by linarith)
      linarith

theorem frameInside_resizeStep (W H aspect : ℚ) (hW : 0 < W) (hH : 0 < H)
    (ha : 0 < aspect) (l : NormalizedRect) (cw : ℚ) (h : frameInside l) :
    frameInside (resizeStep W H aspect l cw) := by
  obtain ⟨hx, hy, hw, hh, hxw, hyh⟩ := h
  simp only [resizeStep, handleFrameUpdate, frameInside]
  set mA := W / H with hmA
  set mWN := max (80 / W) (1/25) with hmWN
  set aW := max 0 (1 - l.x) with haW
  set aH := max 0 (1 - l.y) with haH
  set mwfh := if 0 < aH then aH * (aspect / mA) else 0 with hmwfh
  set mWB := max 0 (min 1 (min aW mwfh)) with hmWB
  set minW := min mWN mWB with hminW
  set maxW := max minW mWB with hmaxW
  set nW := jsClamp cw minW maxW with hnW
  set nH := normalizedHeightFromWidth nW aspect mA with hnH
  have hmA0 : 0 < mA := div_pos hW hH
  have hmWN0 : (0:ℚ) < mWN := lt_of_lt_of_le (by norm_num) (le_max_right _ _)
  have haW0 : 0 ≤ aW := le_max_left _ _
  have haH0 : 0 ≤ aH := le_max_left _ _
  have hmWB0 : 0 ≤ mWB := le_max_left _ _
  have hminW0 : 0 ≤ minW := le_min hmWN0.le hmWB0
  have hminmax : minW ≤ mWB := min_le_right _ _
  have hmaxWeq : maxW = mWB := max_eq_right hminmax
  have hminlemax : minW ≤ maxW := le_max_left _ _
  have hnW0 : 0 ≤ nW := by
    rw [hnW]
    unfold jsClamp
    exact hminW0.trans (le_min ((le_max_right _ _)) hminlemax)
  have hnWle : nW ≤ mWB := by
    rw [hnW]
    unfold jsClamp
    exact (min_le_right _ _).trans hmaxWeq.le
  have hmWBle : mWB ≤ aW :=
    max_le haW0 ((min_le_right _ _).trans (min_le_left _ _))
  have hnH0 : 0 ≤ nH := by
    rw [hnH]
    exact normalizedHeightFromWidth_nonneg _ _ _
  refine ⟨round6_nonneg hx, round6_nonneg hy, round6_nonneg hnW0,
    round6_nonneg hnH0, ?_, ?_⟩
  · by_cases hx1 : l.x ≤ 1
    · have haWeq : aW = 1 - l.x := max_eq_right (by linarith)
      have h2 : nW ≤ 1 - l.x := hnWle.trans (hmWBle.trans_eq haWeq)
      have h3 := round6_le l.x
      have h4 := round6_le nW
      linarith
    · have haWeq : aW = 0 := max_eq_left (by linarith)
      have h2 : nW = 0 :=
        le_antisymm (hnWle.trans (hmWBle.trans_eq haWeq)) hnW0
      rw [h2, round6_zero]
      have h6 := round6_le_one_eps (show l.x ≤ 1 + 1/1000000 by linarith)
      linarith
  · by_cases hy1 : l.y < 1
    · have haHeq : aH = 1 - l.y := max_eq_right (by linarith)
      have haHpos : 0 < aH := by rw [haHeq]; linarith
      have hmwfheq : mwfh = aH * (aspect / mA) := by rw [hmwfh, if_pos haHpos]
      have hmwfh0 : 0 ≤ mwfh := by
        rw [hmwfheq]
        positivity
      have hmWBle2 : mWB ≤ mwfh :=
        max_le hmwfh0 ((min_le_right _ _).trans (min_le_right _ _))
      have hnWle2 : nW ≤ mwfh := hnWle.trans hmWBle2
      have hkey : nW * (mA / aspect) ≤ 1 - l.y := by
        have hpos : 0 ≤ mA / aspect := by positivity
        have := mul_le_mul_of_nonneg_right hnWle2 hpos
        have hid : aH * (aspect / mA) * (mA / aspect) = aH := by
          field_simp
        rw [hmwfheq] at this
        rw [hid] at this
        linarith [haHeq ▸ this]
      have hnHle : nH ≤ 1 - l.y := by
        rw [hnH]
        exact normalizedHeightFromWidth_le hnW0 ha hmA0 (by linarith) hkey
      have h3 := round6_le l.y
      have h4 := round6_le nH
      linarith
    · have haHeq : aH = 0 := max_eq_left (by linarith)
      have hmwfheq : mwfh = 0 := by
        rw [hmwfh, haHeq, if_neg (lt_irrefl 0)]
      have hmWBeq : mWB = 0 := by
        have : min 1 (min aW mwfh) ≤ 0 := by
          rw [hmwfheq]
          exact (min_le_right _ _).trans (min_le_right _ _)
        exact le_antisymm (max_le le_rfl this) hmWB0
      have h2 : nW = 0 := le_antisymm (hnWle.trans_eq hmWBeq) hnW0
      have hnHeq : nH = 0 := by
        have : nH ≤ 0 := by
          rw [hnH]
          refine normalizedHeightFromWidth_le hnW0 ha hmA0 le_rfl ?_
          rw [h2, zero_mul]
        exact le_antisymm this hnH0
      rw [hnHeq, round6_zero]
      have h6 := round6_le_one_eps (show l.y ≤ 1 + 1/1000000 by linarith)
      linarith

theorem frameInside_step {aspect : ℚ} (ha : 0 < aspect) {s s' : NormalizedRect}
    (hstep : DragResizeStep aspect s s') (h : frameInside s) : frameInside s' := by
  cases hstep with
  | drag others candX candY => exact frameInside_dragStep others s candX candY h
  | resize W H hW hH cw => exact frameInside_resizeStep W H aspect hW hH ha s cw h

/-- Amended claim C2: for every frame whose initial layout lies inside the
unit canvas with nonnegative size (`0 ≤ x`, `0 ≤ y`, `0 ≤ width`,
`0 ≤ height`, `x + width ≤ 1`, `y + height ≤ 1`), after any finite
sequence of committed drag and resize updates (positive frame aspect
ratio, positive container metrics) the layout still satisfies `0 ≤ x`,
`0 ≤ y`, `x + width ≤ 1 + ε` and `y + height ≤ 1 + ε` with
`ε = 10⁻⁶`, the quantization tolerance of the six-decimal commit
rounding.  The original claim, with its weaker precondition (no lower
bound on the size fields) and its inclusion of pinch updates, fails on
the code: see the accompanying counterexample. -/
theorem dragResize_invariant (aspect : ℚ) (ha : 0 < aspect)
    (s₀ s : NormalizedRect)
    (h0 : 0 ≤ s₀.x ∧ 0 ≤ s₀.y ∧ 0 ≤ s₀.width ∧ 0 ≤ s₀.height ∧
      s₀.x + s₀.width ≤ 1 ∧ s₀.y + s₀.height ≤ 1)
    (hsteps : Relation.ReflTransGen (DragResizeStep aspect) s₀ s) :
    0 ≤ s.x ∧ 0 ≤ s.y ∧ s.x + s.width ≤ 1 + 1/1000000 ∧
      s.y + s.height ≤ 1 + 1/1000000 := by
  obtain ⟨h1, h2, h3, h4, h5, h6⟩ := h0
  have h0' : frameInside s₀ := ⟨h1, h2, h3, h4, by linarith, by linarith⟩
  have hins : frameInside s := by
    induction hsteps with
    | refl => exact h0'
    | tail _ hbc ih => exact frameInside_step ha hbc ih
  exact ⟨hins.1, hins.2.1, hins.2.2.2.2.1, hins.2.2.2.2.2⟩

theorem dragResize_invariant_witness :
    0 ≤ (dragStep [] ⟨0, 0, 1/2, 1/2⟩ (1/100) 0).x ∧
    0 ≤ (dragStep [] ⟨0, 0, 1/2, 1/2⟩ (1/100) 0).y ∧
    (dragStep [] ⟨0, 0, 1/2, 1/2⟩ (1/100) 0).x +
      (dragStep [] ⟨0, 0, 1/2, 1/2⟩ (1/100) 0).width ≤ 1 + 1/1000000 ∧
    (dragStep [] ⟨0, 0, 1/2, 1/2⟩ (1/100) 0).y +
      (dragStep [] ⟨0, 0, 1/2, 1/2⟩ (1/100) 0).height ≤ 1 + 1/1000000 :=
  dragResize_invariant 1 one_pos ⟨0, 0, 1/2, 1/2⟩ _ (by norm_num)
    (Relation.ReflTransGen.single (DragResizeStep.drag [] (1/100) 0 ⟨0, 0, 1/2, 1/2⟩))

set_option maxHeartbeats 2000000 in
/-- Counterexample to claim C2 as stated.  First trace: the start rect
`⟨0, 6, 1/2, -5⟩` satisfies the claimed precondition (`0 ≤ x`, `0 ≤ y`,
`width ≤ 1`, `height ≤ 1` — nothing bounds `y + height`), yet after one
committed resize the layout has `y + height = 6 > 1 + ε`.  Second trace:
the start rect `⟨0, 1, 1/2, 10⁻⁹⟩` lies fully inside the canvas, but a
pinch at aspect ratio `10¹³` overflows the center-preserving width clamp
(the clamp range is inverted, `max < min`), committing `x = 12001/4` and
`width = -6000`; the following resize keeps `x`, collapses the width to
`0`, and leaves `x + width = 3000.25 > 1 + ε`. -/
theorem manipulation_invariant_counterexample :
    ((0 ≤ (⟨0, 6, 1/2, -5⟩ : NormalizedRect).x ∧
        0 ≤ (⟨0, 6, 1/2, -5⟩ : NormalizedRect).y ∧
        (⟨0, 6, 1/2, -5⟩ : NormalizedRect).width ≤ 1 ∧
        (⟨0, 6, 1/2, -5⟩ : NormalizedRect).height ≤ 1) ∧
      ¬ ((resizeStep 1000 600 1 ⟨0, 6, 1/2, -5⟩ 0).y +
            (resizeStep 1000 600 1 ⟨0, 6, 1/2, -5⟩ 0).height ≤ 1 + 1/1000000)) ∧
    ((0 ≤ (⟨0, 1, 1/2, 1/1000000000⟩ : NormalizedRect).x ∧
        0 ≤ (⟨0, 1, 1/2, 1/1000000000⟩ : NormalizedRect).y ∧
        (⟨0, 1, 1/2, 1/1000000000⟩ : NormalizedRect).width ≤ 1 ∧
        (⟨0, 1, 1/2, 1/1000000000⟩ : NormalizedRect).height ≤ 1) ∧
      ¬ ((resizeStep 1000 600 (10^13)
              (pinchStep 1000 600 (10^13) [] ⟨0, 1, 1/2, 1/1000000000⟩
                ⟨0, 1, 1/2, 1/1000000000⟩ 100 100) 0).x +
            (resizeStep 1000 600 (10^13)
              (pinchStep 1000 600 (10^13) [] ⟨0, 1, 1/2, 1/1000000000⟩
                ⟨0, 1, 1/2, 1/1000000000⟩ 100 100) 0).width ≤ 1 + 1/1000000)) := by
  constructor
  · refine ⟨by norm_num, ?_⟩
    have h1 : resizeStep 1000 600 1 ⟨0, 6, 1/2, -5⟩ 0 = ⟨0, 6, 0, 0⟩ := by
      norm_num [resizeStep, handleFrameUpdate, normalizedHeightFromWidth, jsClamp,
        round6, jsRound, min_def, max_def]
    rw [h1]
    norm_num
  · refine ⟨by norm_num, ?_⟩
    have hp : pinchStep 1000 600 (10^13) [] ⟨0, 1, 1/2, 1/1000000000⟩
        ⟨0, 1, 1/2, 1/1000000000⟩ 100 100 = ⟨12001/4, 1, -6000, 0⟩ := by
      norm_num [pinchStep, handleFrameUpdate, clampPosition, snapCoordinate,
        snapCandidates, SNAP_THRESHOLD, jsClamp, round6, jsRound, List.find?,
        abs_le, min_def, max_def]
    rw [hp]
    have hr : resizeStep 1000 600 (10^13) ⟨12001/4, 1, -6000, 0⟩ 0 =
        ⟨12001/4, 1, 0, 0⟩ := by
      norm_num [resizeStep, handleFrameUpdate, normalizedHeightFromWidth, jsClamp,
        round6, jsRound, min_def, max_def]
    rw [hr]
    norm_num
